import Mathlib

/-
  Verification of the reviewer-suggestion ranking engine of the pr-advisor
  repository (lib/reviewer-suggester.js).  The JavaScript source is embedded
  shallowly: JS Maps become association lists preserving insertion order,
  JS numbers become Nat / Int / Rat as appropriate, and the external
  minimatch glob matcher is a function parameter.
-/

namespace PRAdvisor


/-- Whether the character list n occurs contiguously inside h
(used to embed JS String.includes). -/
def listStartsWithSeq : List Char → List Char → Bool
  | _, [] => true
  | [], _ :: _ => false
  | c :: t, c2 :: t2 => c == c2 && listStartsWithSeq t t2

def listContainsSeq : List Char → List Char → Bool
  | [], n => n.isEmpty
  | c :: t, n => listStartsWithSeq (c :: t) n || listContainsSeq t n

/-- JS String.toLowerCase on the character-list view of a string. -/
def toLowerCase (s : String) : String := String.mk (s.data.map Char.toLower)

/-- JS String.endsWith on the character-list view of a string. -/
def jsEndsWith (s suffix : String) : Bool :=
  listStartsWithSeq s.data.reverse suffix.data.reverse

/-- JS String.startsWith on the character-list view of a string. -/
def jsStartsWith (s pre : String) : Bool :=
  listStartsWithSeq s.data pre.data

/-- JS String.trim on the character-list view of a string. -/
def jsTrim (s : String) : String :=
  String.mk (((s.data.dropWhile Char.isWhitespace).reverse.dropWhile
    Char.isWhitespace).reverse)

/-- Association-list lookup: first entry with the given key (JS Map.get). -/
def lookupKey {α : Type} : List (String × α) → String → Option α
  | [], _ => none
  | (k2, v) :: t, k => if k2 = k then some v else lookupKey t k

/-- Lookup with default (JS `map.get(k) || d`). -/
def mapGetD {α : Type} (m : List (String × α)) (k : String) (d : α) : α :=
  (lookupKey m k).getD d

/-- JS Map.set: update the first entry with the key in place (preserving its
position), or append a fresh entry at the end. -/
def mapSet {α : Type} : List (String × α) → String → α → List (String × α)
  | [], k, v => [(k, v)]
  | (k2, v2) :: t, k, v => if k2 = k then (k2, v) :: t else (k2, v2) :: mapSet t k v

/-- JS Set.add on an insertion-ordered list model of a Set. -/
def setAdd (s : List String) (r : String) : List String :=
  if s.contains r then s else s ++ [r]

/-- JS `map.set(k, (map.get(k) || 0) + 1)`. -/
def bumpCount (m : List (String × Nat)) (k : String) : List (String × Nat) :=
  mapSet m k (mapGetD m k 0 + 1)

def isBotLogin (login : String) : Bool :=
  if login = "" then true
  else
    jsEndsWith login "[bot]" ||
    listContainsSeq (toLowerCase login).data "bot".data ||
    toLowerCase login == "github-actions"

/-- JS String.split on the comma character. -/
def splitCommaAux : List Char → List Char → List (List Char)
  | [], acc => [acc.reverse]
  | c :: t, acc => if c = ',' then acc.reverse :: splitCommaAux t [] else splitCommaAux t (c :: acc)

/-- JS parseCommaSeparated: split on commas, trim, lowercase, drop empties. -/
def parseCommaSeparated (s : String) : List String :=
  (((splitCommaAux s.data []).map
    (fun l => toLowerCase (jsTrim (String.mk l)))).filter (fun x => x ≠ ""))

/-- Ascending insertion into a sorted list (embedding of the numeric
comparator sort used by the JS median). -/
def insertAsc (x : ℚ) : List ℚ → List ℚ
  | [] => [x]
  | h :: t => if x ≤ h then x :: h :: t else h :: insertAsc x t

def sortAsc (l : List ℚ) : List ℚ := l.foldr insertAsc []

/-- JS median: null on an empty list, middle element of the sorted copy for
odd length, average of the two middle elements for even length. -/
def median (arr : List ℚ) : Option ℚ :=
  if arr = [] then none
  else if (sortAsc arr).length % 2 = 1 then
    some ((sortAsc arr).getD ((sortAsc arr).length / 2) 0)
  else
    some (((sortAsc arr).getD ((sortAsc arr).length / 2 - 1) 0 +
      (sortAsc arr).getD ((sortAsc arr).length / 2) 0) / 2)

-- -------------------- CODEOWNERS support --------------------

structure CodeownersRule where
  pattern : String
  owners : List String
  teams : List String
deriving DecidableEq, Repr

/-- JS normalizeCodeownersPattern. -/
def normalizeCodeownersPattern (pattern : String) : String :=
  if jsStartsWith pattern "/" then String.mk (pattern.data.drop 1) else "**/" ++ pattern

/-- The loop body of ownersForFile: a later matching rule overwrites the
previously matched owners.  The glob matcher mm stands for the external
minimatch call (with dot and matchBase options fixed at the call site). -/
def ownersForFileGo (mm : String → String → Bool) (filePath : String) :
    List CodeownersRule → List String → List String
  | [], matched => matched
  | r :: t, matched =>
    ownersForFileGo mm filePath t
      (if mm filePath (normalizeCodeownersPattern r.pattern) then r.owners else matched)

/-- JS ownersForFile. -/
def ownersForFile (mm : String → String → Bool) (rules : List CodeownersRule)
    (filePath : String) : List String :=
  if rules.isEmpty then [] else ownersForFileGo mm filePath rules []

-- -------------------- Review latency --------------------

structure Review where
  userLogin : Option String
  submittedAt : Option ℚ
deriving DecidableEq, Repr

structure LatencyPR where
  mergedOrClosed : Bool
  createdAt : ℚ
  reviews : List Review
deriving DecidableEq, Repr

/-- JS firstByUser map construction: earliest submission per non-bot login. -/
def firstByUser (reviews : List Review) : List (String × ℚ) :=
  reviews.foldl
    (fun m r =>
      match r.userLogin with
      | none => m
      | some login =>
        if login = "" then m
        else if isBotLogin login then m
        else
          match r.submittedAt with
          | none => m
          | some t =>
            match lookupKey m login with
            | none => mapSet m login t
            | some ex => if t < ex then mapSet m login t else m)
    []

/-- JS `perReviewer` accumulation: ensure a per-login list exists, push the
new hours value at the end. -/
def pushHour (per : List (String × List ℚ)) (login : String) (h : ℚ) :
    List (String × List ℚ) :=
  match lookupKey per login with
  | none => mapSet per login [h]
  | some arr => mapSet per login (arr ++ [h])

/-- The per-PR accumulation loop of computeReviewerLatencyHours; timestamps
are rational milliseconds, hours are derived by dividing by 3600000. -/
def accumulateLatency (since : ℚ) (prs : List LatencyPR) : List (String × List ℚ) :=
  prs.foldl
    (fun per pr =>
      if pr.mergedOrClosed = false then per
      else if pr.createdAt < since then per
      else
        (firstByUser pr.reviews).foldl
          (fun per p =>
            let hours := (p.2 - pr.createdAt) / 3600000
            if hours < 0 then per else pushHour per p.1 hours)
          per)
    []

/-- The final loop of computeReviewerLatencyHours: keep the median of each
accumulated list, skipping null medians. -/
def latencyFinalizeAux (out : List (String × ℚ)) :
    List (String × List ℚ) → List (String × ℚ)
  | [] => out
  | (login, arr) :: t =>
    match median arr with
    | none => latencyFinalizeAux out t
    | some m => latencyFinalizeAux (mapSet out login m) t

/-- JS computeReviewerLatencyHours with the fetched closed-PR data passed
in as an argument. -/
def computeReviewerLatencyHours (since : ℚ) (prs : List LatencyPR) :
    List (String × ℚ) :=
  latencyFinalizeAux [] (accumulateLatency since prs)

/-- JS latencyBonusHours (null median gives no bonus). -/
def latencyBonusHours (medianHours : Option ℚ) : Nat :=
  match medianHours with
  | none => 0
  | some m =>
    if m ≤ 4 then 6
    else if m ≤ 12 then 4
    else if m ≤ 24 then 2
    else if m ≤ 48 then 1
    else 0

-- -------------------- Review load --------------------

/-- JS Math.round on non-negative rationals (half rounds up). -/
def jsRound (x : ℚ) : ℤ := Rat.floor (x + 1/2)

def applyLoadPenalty (score : ℚ) (openReviews : ℚ) : ℚ :=
  score * (1 / (1 + openReviews / 3))

-- -------------------- Reviewer exclusion --------------------

/-- JS fetchExcludedReviewers with the parsed repository-config entries
(already trimmed, unquoted and lowercased by the regex scan) supplied as
an argument: the merged set starts from the lowercased input excludes. -/
def fetchExcludedReviewers (inputExcludes : List String) (configExcludes : List String) :
    List String :=
  configExcludes.foldl (fun s u => if u = "" then s else setAdd s u)
    (inputExcludes.foldl (fun s x => setAdd s (toLowerCase x)) [])

-- -------------------- Cross-repo expertise --------------------

structure Commit where
  authorLogin : Option String
deriving DecidableEq, Repr

/-- JS fetchCrossRepoExpertise: each successfully fetched commit batch (one
per configured repo and considered path) bumps the count of every non-bot
commit author. -/
def fetchCrossRepoExpertise (commitBatches : List (List Commit)) :
    List (String × Nat) :=
  commitBatches.foldl
    (fun m batch =>
      batch.foldl
        (fun m c =>
          match c.authorLogin with
          | none => m
          | some login =>
            if login = "" then m
            else if isBotLogin login then m
            else bumpCount m login)
        m)
    []

-- -------------------- Timezone awareness --------------------

/-- JS timezoneBonus on the rounded average commit hour. -/
def timezoneBonus (avgHourUTC : ℤ) (preferredOffsetHours : ℤ) : Nat :=
  let preferredCenterUTC := Int.tmod (14 - preferredOffsetHours + 24) 24
  let diff := |avgHourUTC - preferredCenterUTC|
  let wrappedDiff := min diff (24 - diff)
  if wrappedDiff ≤ 4 then 3
  else if wrappedDiff ≤ 8 then 1
  else 0

-- -------------------- Flaky reviewer detection --------------------

structure FlakySample where
  createdAt : ℚ
  reviews : List (Option String)
deriving DecidableEq, Repr

/-- The reviewed-set of one sampled closed PR (lowercased, deduplicated). -/
def reviewedSetOfPR (reviews : List (Option String)) : List String :=
  reviews.foldl
    (fun s r =>
      match r with
      | none => s
      | some login => if login = "" then s else setAdd s (toLowerCase login))
    []

/-- Per-login count of sampled closed PRs with any submitted review. -/
def reviewedCountsFrom (since : ℚ) (closed : List FlakySample) : List (String × Nat) :=
  closed.foldl
    (fun m pr =>
      if pr.createdAt < since then m
      else (reviewedSetOfPR pr.reviews).foldl bumpCount m)
    []

/-- Per-login count of open-PR review requests (lowercased logins). -/
def requestedCountsFrom (openPRs : List (List (Option String))) : List (String × Nat) :=
  openPRs.foldl
    (fun m logins =>
      logins.foldl
        (fun m login =>
          let l := toLowerCase (login.getD "")
          if l = "" then m else bumpCount m l)
        m)
    []

/-- The final loop of detectFlakyReviewers. -/
def flakyFrom (requestedCounts reviewedCounts : List (String × Nat)) : List String :=
  (requestedCounts.filter
    (fun p => decide (3 ≤ p.2) && decide (mapGetD reviewedCounts p.1 0 < p.2))).map
    (fun p => p.1)

/-- JS detectFlakyReviewers with the fetched PR data passed in. -/
def detectFlakyReviewers (since : ℚ) (closed : List FlakySample)
    (openPRs : List (List (Option String))) : List String :=
  flakyFrom (requestedCountsFrom openPRs) (reviewedCountsFrom since closed)

-- -------------------- Ranking --------------------

structure Weights where
  commitHistory : Nat
  codeowners : Nat
  latency : Nat
deriving DecidableEq, Repr

structure TimezoneData where
  preferredOffset : ℤ
  avgHours : List (String × ℤ)
deriving DecidableEq, Repr

structure RankInput where
  fileAuthors : List (String × List String)
  prAuthor : String
  codeownersRules : List CodeownersRule
  changedFiles : List String
  latencyMap : List (String × ℚ)
  weights : Weights
  crossRepoExpertise : List (String × Nat)
  timezoneData : Option TimezoneData
  requiredReviewers : List String
deriving DecidableEq, Repr

/-- The two mutable maps of rankCandidates: scores and reason sets. -/
structure RankState where
  scores : List (String × Nat)
  reasons : List (String × List String)
deriving DecidableEq, Repr

/-- The reasons part of the JS add closure: ensure a reason set exists for
the login, then add the (always non-empty) reason string. -/
def reasonsAddReason (m : List (String × List String)) (k r : String) :
    List (String × List String) :=
  match lookupKey m k with
  | none => mapSet m k (setAdd [] r)
  | some s => mapSet m k (setAdd s r)

/-- The JS add closure of rankCandidates: skip bots and the PR author,
otherwise bump the score and record the reason. -/
def addCand (prAuthor : String) (st : RankState) (login : String) (pts : Nat)
    (reason : String) : RankState :=
  if isBotLogin login then st
  else if login = prAuthor then st
  else
    { scores := mapSet st.scores login (mapGetD st.scores login 0 + pts)
      reasons := reasonsAddReason st.reasons login reason }

/-- Step 1 of rankCandidates: per-path commit-history credit, weight
max(1, 3 - i) for the i-th author entry among the first ten. -/
def commitStep (prAuthor : String) (wch : Nat)
    (fileAuthors : List (String × List String)) (st : RankState) : RankState :=
  fileAuthors.foldl
    (fun st pa =>
      ((pa.2.take 10).enum).foldl
        (fun st ia => addCand prAuthor st ia.2 (Nat.max 1 (3 - ia.1) * wch) "recent commits")
        st)
    st

/-- The inner loop of the CODEOWNERS step for a single changed file,
threading the seen set of owner::file keys. -/
def codeownersFileStep (mm : String → String → Bool) (prAuthor : String) (wco : Nat)
    (rules : List CodeownersRule) (f : String) (acc : List String × RankState) :
    List String × RankState :=
  (ownersForFile mm rules f).foldl
    (fun acc o =>
      if o = "" then acc
      else
        let key := o ++ "::" ++ f
        if acc.1.contains key then acc
        else (acc.1 ++ [key], addCand prAuthor acc.2 o wco "CODEOWNERS"))
    acc

/-- Step 2 of rankCandidates: flat CODEOWNERS bonus, at most once per
(owner, file) pair, only when the weight is positive and rules exist. -/
def codeownersStep (mm : String → String → Bool) (prAuthor : String) (wco : Nat)
    (rules : List CodeownersRule) (changedFiles : List String) (st : RankState) :
    RankState :=
  if 0 < wco ∧ rules ≠ [] then
    (changedFiles.foldl (fun acc f => codeownersFileStep mm prAuthor wco rules f acc)
      ([], st)).2
  else st

/-- The interpolated reason string of the latency bonus. -/
def latencyReason (medHrs : ℚ) : String :=
  "fast reviewer (~" ++ toString (jsRound medHrs) ++ "h median)"

/-- Step 3 of rankCandidates: latency bonus for each login in the latency
map, added only when positive. -/
def latencyStep (prAuthor : String) (wlat : Nat) (latencyMap : List (String × ℚ))
    (st : RankState) : RankState :=
  if 0 < wlat ∧ latencyMap ≠ [] then
    latencyMap.foldl
      (fun st p =>
        let bonus := latencyBonusHours (some p.2) * wlat
        if 0 < bonus then addCand prAuthor st p.1 bonus (latencyReason p.2) else st)
      st
  else st

/-- Step 4 of rankCandidates: cross-repo expertise, capped at 5 points. -/
def crossRepoStep (prAuthor : String) (cre : List (String × Nat)) (st : RankState) :
    RankState :=
  if cre ≠ [] then
    cre.foldl (fun st p => addCand prAuthor st p.1 (Nat.min p.2 5) "cross-repo expertise") st
  else st

/-- Step 5 of rankCandidates: timezone-match bonus, added only when
positive. -/
def timezoneStep (prAuthor : String) (tz : Option TimezoneData) (st : RankState) :
    RankState :=
  match tz with
  | none => st
  | some td =>
    td.avgHours.foldl
      (fun st p =>
        let bonus := timezoneBonus p.2 td.preferredOffset
        if 0 < bonus then addCand prAuthor st p.1 bonus "timezone match" else st)
      st

/-- The loop body of the required-reviewer step: skip the PR author and
bots; a login with no score yet gets 10 points, one with signal gets 5. -/
def requiredBody (prAuthor : String) (st : RankState) (login : String) : RankState :=
  if login = prAuthor then st
  else if isBotLogin login then st
  else if mapGetD st.scores login 0 = 0 then addCand prAuthor st login 10 "required reviewer"
  else addCand prAuthor st login 5 "required reviewer"

/-- Step 6 of rankCandidates: the required-reviewer floor. -/
def requiredStep (prAuthor : String) (required : List String) (st : RankState) :
    RankState :=
  required.foldl (requiredBody prAuthor) st

/-- The accumulator state of rankCandidates before the required-reviewer
step (steps 1-5 in source order). -/
def preRequiredState (mm : String → String → Bool) (inp : RankInput) : RankState :=
  timezoneStep inp.prAuthor inp.timezoneData
    (crossRepoStep inp.prAuthor inp.crossRepoExpertise
      (latencyStep inp.prAuthor inp.weights.latency inp.latencyMap
        (codeownersStep mm inp.prAuthor inp.weights.codeowners inp.codeownersRules
          inp.changedFiles
          (commitStep inp.prAuthor inp.weights.commitHistory inp.fileAuthors
            { scores := [], reasons := [] }))))

/-- The accumulator state of rankCandidates after all six steps. -/
def rankFinalState (mm : String → String → Bool) (inp : RankInput) : RankState :=
  requiredStep inp.prAuthor inp.requiredReviewers (preRequiredState mm inp)

structure RankedCandidate where
  login : String
  score : Nat
  reasons : List String
  openReviews : Option Nat
deriving DecidableEq, Repr

/-- Stable descending insertion (the JS stable sort on scores): an element
is placed before the first strictly smaller one, after equal ones already
present. -/
def insertByScoreDesc {α : Type} (key : α → Nat) (x : α) : List α → List α
  | [] => [x]
  | h :: t => if key h ≤ key x then x :: h :: t else h :: insertByScoreDesc key x t

def sortByScoreDesc {α : Type} (key : α → Nat) : List α → List α
  | [] => []
  | h :: t => insertByScoreDesc key h (sortByScoreDesc key t)

/-- JS rankCandidates: sort the score entries descending (stable on the
insertion order) and attach the recorded reasons. -/
def rankCandidates (mm : String → String → Bool) (inp : RankInput) :
    List RankedCandidate :=
  let st := rankFinalState mm inp
  (sortByScoreDesc (fun p => p.2) st.scores).map
    (fun p =>
      { login := p.1, score := p.2, reasons := mapGetD st.reasons p.1 [],
        openReviews := none })

-- -------------------- Confidence --------------------

inductive Confidence
  | High
  | Medium
  | Low
deriving DecidableEq, Repr

def topScoreOf (ranked : List RankedCandidate) : Nat :=
  match ranked with
  | [] => 0
  | r :: _ => r.score

def secondScoreOf (ranked : List RankedCandidate) : Nat :=
  match ranked with
  | _ :: r :: _ => r.score
  | _ => 0

def dedupKeepFirstAux (seen : List String) : List String → List String
  | [] => []
  | h :: t =>
    if seen.contains h then dedupKeepFirstAux seen t
    else h :: dedupKeepFirstAux (h :: seen) t

/-- Distinct changed files in first-seen order (the JS byFileHasSignal Map
keys). -/
def dedupKeepFirst (l : List String) : List String := dedupKeepFirstAux [] l

/-- The covered count of computeConfidence. -/
def coveredCountOf (mm : String → String → Bool) (changedFiles : List String)
    (rules : List CodeownersRule) (fileAuthors : List (String × List String)) : Nat :=
  let covered1 :=
    if fileAuthors.length ≠ 0 then
      Nat.min changedFiles.length (Nat.max 1 fileAuthors.length)
    else 0
  let codeownersCovered :=
    if rules.length ≠ 0 then
      ((dedupKeepFirst changedFiles).filter
        (fun f => !(ownersForFile mm rules f).isEmpty)).length
    else 0
  Nat.max covered1 codeownersCovered

def coverageRatioOf (mm : String → String → Bool) (changedFiles : List String)
    (rules : List CodeownersRule) (fileAuthors : List (String × List String)) : ℚ :=
  if changedFiles.length ≠ 0 then
    (coveredCountOf mm changedFiles rules fileAuthors : ℚ) / (changedFiles.length : ℚ)
  else 0

def separationOf (ranked : List RankedCandidate) : ℚ :=
  if 0 < topScoreOf ranked then
    ((topScoreOf ranked : ℚ) - (secondScoreOf ranked : ℚ)) / (topScoreOf ranked : ℚ)
  else 0

/-- JS computeConfidence. -/
def computeConfidence (mm : String → String → Bool) (ranked : List RankedCandidate)
    (changedFiles : List String) (rules : List CodeownersRule)
    (fileAuthors : List (String × List String)) : Confidence :=
  if 12 ≤ topScoreOf ranked ∧ (1/2 : ℚ) ≤ coverageRatioOf mm changedFiles rules fileAuthors ∧
      (1/4 : ℚ) ≤ separationOf ranked then Confidence.High
  else if 6 ≤ topScoreOf ranked ∧ (1/4 : ℚ) ≤ coverageRatioOf mm changedFiles rules fileAuthors
    then Confidence.Medium
  else Confidence.Low

-- -------------------- analyzeReviewers post-rank pipeline --------------------

/-- The exclusion filter of analyzeReviewers (line 598). -/
def excludeFilter (excluded : List String) (ranked : List RankedCandidate) :
    List RankedCandidate :=
  ranked.filter (fun r => !excluded.contains (toLowerCase r.login))

/-- The per-candidate body of the load-penalty block. -/
def penalizeCandidate (loadCounts : List (String × Nat)) (r : RankedCandidate) :
    RankedCandidate :=
  let openReviews := mapGetD loadCounts r.login 0
  { r with openReviews := some openReviews,
           score := (jsRound (applyLoadPenalty (r.score : ℚ) (openReviews : ℚ))).toNat }

/-- The load-penalty block of analyzeReviewers (applied when penalizeLoad
is set and the load fetch succeeded), followed by the re-sort. -/
def applyLoadStep (penalizeLoad : Bool) (loadCounts : List (String × Nat))
    (ranked : List RankedCandidate) : List RankedCandidate :=
  if penalizeLoad then
    sortByScoreDesc (fun r => r.score) (ranked.map (penalizeCandidate loadCounts))
  else ranked

/-- The per-candidate body of the flaky-penalty block. -/
def flakyCandidate (flaky : List String) (r : RankedCandidate) : RankedCandidate :=
  if flaky.contains (toLowerCase r.login) then
    { r with score := (jsRound ((r.score : ℚ) * (1/2))).toNat,
             reasons := r.reasons ++ ["flaky reviewer"] }
  else r

/-- The flaky-penalty block of analyzeReviewers, followed by the re-sort
(skipped entirely when no reviewer was flagged). -/
def applyFlakyStep (flaky : List String) (ranked : List RankedCandidate) :
    List RankedCandidate :=
  if flaky = [] then ranked
  else sortByScoreDesc (fun r => r.score) (ranked.map (flakyCandidate flaky))

/-- The ranked list of analyzeReviewers after exclusion, load penalty and
flaky penalty, before truncation (the list handed to computeConfidence). -/
def analyzeRanked (mm : String → String → Bool) (inp : RankInput)
    (excluded : List String) (penalizeLoad : Bool) (loadCounts : List (String × Nat))
    (flaky : List String) : List RankedCandidate :=
  applyFlakyStep flaky
    (applyLoadStep penalizeLoad loadCounts
      (excludeFilter excluded (rankCandidates mm inp)))

/-- The truncated suggestions output of analyzeReviewers. -/
def suggestionsOf (mm : String → String → Bool) (inp : RankInput)
    (excluded : List String) (penalizeLoad : Bool) (loadCounts : List (String × Nat))
    (flaky : List String) (maxReviewers : Nat) : List RankedCandidate :=
  (analyzeRanked mm inp excluded penalizeLoad loadCounts flaky).take maxReviewers

/-- The confidence output of analyzeReviewers. -/
def confidenceOf (mm : String → String → Bool) (inp : RankInput)
    (excluded : List String) (penalizeLoad : Bool) (loadCounts : List (String × Nat))
    (flaky : List String) (filesToCheck : List String) : Confidence :=
  computeConfidence mm (analyzeRanked mm inp excluded penalizeLoad loadCounts flaky)
    filesToCheck inp.codeownersRules inp.fileAuthors

-- -------------------- Attribution collector --------------------

/-- JS topCommitAuthorsForPath: the non-bot commit author logins of a path's
recent commits, in the order returned by the API, without deduplication. -/
def topCommitAuthorsForPath (commits : List Commit) : List String :=
  commits.foldl
    (fun authors c =>
      match c.authorLogin with
      | none => authors
      | some login =>
        if login = "" then authors
        else if isBotLogin login then authors
        else authors ++ [login])
    []

-- -------------------- Lemmas about ownersForFile --------------------

def keysOf {α : Type} (m : List (String × α)) : List String := m.map (fun p => p.1)

def keysOk (prAuthor : String) (st : RankState) : Prop :=
  ∀ q ∈ st.scores, isBotLogin q.1 = false ∧ q.1 ≠ prAuthor

def valuesPos (st : RankState) : Prop := ∀ q ∈ st.scores, 0 < q.2

def reasonsOk (st : RankState) : Prop :=
  ∀ q ∈ st.reasons, "flaky reviewer" ∉ q.2

def specAttributionCredit (wch : Nat) (authors : List String) (login : String) : Nat :=
  (((((dedupKeepFirst authors).take 10).enum).filter (fun ia => ia.2 = login)).map
    (fun ia => Nat.max 1 (3 - ia.1) * wch)).sum

/-- The credit the code actually adds for one path: summed over the
positions of the raw (non-deduplicated) author list. -/
def positionCredit (wch : Nat) (authors : List String) (login : String) : Nat :=
  ((((authors.take 10).enum).filter (fun ia => ia.2 = login)).map
    (fun ia => Nat.max 1 (3 - ia.1) * wch)).sum

theorem lookupKey_mapSet_self {α : Type} (m : List (String × α)) (k : String) (v : α) :
    lookupKey (mapSet m k v) k = some v := by
  induction m with
  | nil => simp [mapSet, lookupKey]
  | cons h t ih =>
    obtain ⟨k2, v2⟩ := h
    by_cases hk : k2 = k
    · simp [mapSet, hk, lookupKey]
    · simp [mapSet, hk, lookupKey, ih]

theorem lookupKey_mapSet_of_ne {α : Type} (m : List (String × α)) (k k' : String) (v : α)
    (h : k ≠ k') : lookupKey (mapSet m k v) k' = lookupKey m k' := by
  induction m with
  | nil => simp [mapSet, lookupKey, fun hh => h hh]
  | cons hd t ih =>
    obtain ⟨k2, v2⟩ := hd
    by_cases hk : k2 = k
    · subst hk
      simp [mapSet, lookupKey, fun hh => h hh]
    · simp [mapSet, hk, lookupKey, ih]

theorem mapGetD_mapSet_self {α : Type} (m : List (String × α)) (k : String) (v d : α) :
    mapGetD (mapSet m k v) k d = v := by
  simp [mapGetD, lookupKey_mapSet_self]

theorem mapGetD_mapSet_of_ne {α : Type} (m : List (String × α)) (k k' : String) (v d : α)
    (h : k ≠ k') : mapGetD (mapSet m k v) k' d = mapGetD m k' d := by
  simp [mapGetD, lookupKey_mapSet_of_ne m k k' v h]

theorem mem_mapSet_elim {α : Type} (m : List (String × α)) (k : String) (v : α)
    (q : String × α) (hq : q ∈ mapSet m k v) : (q.1 = k ∧ q.2 = v) ∨ q ∈ m := by
  induction m with
  | nil =>
    simp [mapSet] at hq
    subst hq
    exact Or.inl ⟨rfl, rfl⟩
  | cons hd t ih =>
    obtain ⟨k2, v2⟩ := hd
    by_cases hk : k2 = k
    · subst hk
      simp [mapSet] at hq
      rcases hq with hq | hq
      · subst hq
        exact Or.inl ⟨rfl, rfl⟩
      · exact Or.inr (List.mem_cons_of_mem _ hq)
    · simp [mapSet, hk] at hq
      rcases hq with hq | hq
      · subst hq
        exact Or.inr (List.mem_cons_self _ _)
      · rcases ih hq with h1 | h1
        · exact Or.inl h1
        · exact Or.inr (List.mem_cons_of_mem _ h1)

theorem lookupKey_eq_some_mem {α : Type} (m : List (String × α)) (k : String) (v : α)
    (h : lookupKey m k = some v) : (k, v) ∈ m := by
  induction m with
  | nil => simp [lookupKey] at h
  | cons hd t ih =>
    obtain ⟨k2, v2⟩ := hd
    by_cases hk : k2 = k
    · subst hk
      simp [lookupKey] at h
      subst h
      exact List.mem_cons_self _ _
    · simp [lookupKey, hk] at h
      exact List.mem_cons_of_mem _ (ih h)

/-- A private invariant-preservation principle for left folds. -/
theorem foldl_preserves {α β : Type} (P : α → Prop) (f : α → β → α) (l : List β) (a : α)
    (h0 : P a) (hstep : ∀ x b, b ∈ l → P x → P (f x b)) : P (l.foldl f a) := by
  induction l generalizing a with
  | nil => exact h0
  | cons hd t ih =>
    exact ih (f a hd) (hstep a hd (List.mem_cons_self _ _) h0)
      (fun x b hb hx => hstep x b (List.mem_cons_of_mem _ hb) hx)

/-- JS isBotLogin: a falsy (empty) login is treated as a bot; otherwise a
login is bot-like when it ends with the "[bot]" suffix, contains "bot"
case-insensitively, or equals the known automation account. -/
theorem jsRound_eq_floor (x : ℚ) : jsRound x = Int.floor (x + 1/2) := by
  unfold jsRound
  rw [Rat.floor_def', Rat.floor_def]

/-- JS applyLoadPenalty, before the rounding done at the call site. -/
theorem ownersForFileGo_append (mm : String → String → Bool) (path : String)
    (l1 l2 : List CodeownersRule) (acc : List String) :
    ownersForFileGo mm path (l1 ++ l2) acc =
      ownersForFileGo mm path l2 (ownersForFileGo mm path l1 acc) := by
  induction l1 generalizing acc with
  | nil => simp [ownersForFileGo]
  | cons r t ih => simp [ownersForFileGo, ih]

theorem ownersForFileGo_no_match (mm : String → String → Bool) (path : String)
    (l : List CodeownersRule) (acc : List String)
    (h : ∀ r ∈ l, mm path (normalizeCodeownersPattern r.pattern) = false) :
    ownersForFileGo mm path l acc = acc := by
  induction l generalizing acc with
  | nil => rfl
  | cons r t ih =>
    have hr := h r (List.mem_cons_self _ _)
    simp [ownersForFileGo, hr]
    exact ih acc (fun r2 hr2 => h r2 (List.mem_cons_of_mem _ hr2))

theorem ownersForFile_last_match (mm : String → String → Bool) (path : String)
    (pre post : List CodeownersRule) (r : CodeownersRule)
    (hr : mm path (normalizeCodeownersPattern r.pattern) = true)
    (hpost : ∀ r2 ∈ post, mm path (normalizeCodeownersPattern r2.pattern) = false) :
    ownersForFile mm (pre ++ r :: post) path = r.owners := by
  have hne : ((pre ++ r :: post).isEmpty) = false := by
    cases pre <;> simp
  unfold ownersForFile
  rw [hne]
  simp only [Bool.false_eq_true, if_false]
  rw [ownersForFileGo_append]
  show ownersForFileGo mm path (r :: post) _ = r.owners
  simp [ownersForFileGo, hr]
  exact ownersForFileGo_no_match mm path post r.owners hpost

/-- Claim C1: ownership resolution returns the owners of the last rule (in
file order) whose normalized pattern matches the path: if no rule's
normalized pattern matches, the result is empty; if the rule r matches and
nothing after it matches, the result is exactly r.owners (covering the
one-match case); and if two rules r1 and r2 match in sequence with nothing
after r2 matching, the result is the later rule r2's owners. -/
theorem C1_theorem (mm : String → String → Bool) (path : String) :
    (∀ rules : List CodeownersRule,
      (∀ r ∈ rules, mm path (normalizeCodeownersPattern r.pattern) = false) →
      ownersForFile mm rules path = []) ∧
    (∀ (pre post : List CodeownersRule) (r : CodeownersRule),
      mm path (normalizeCodeownersPattern r.pattern) = true →
      (∀ r2 ∈ post, mm path (normalizeCodeownersPattern r2.pattern) = false) →
      ownersForFile mm (pre ++ r :: post) path = r.owners) ∧
    (∀ (pre mid post : List CodeownersRule) (r1 r2 : CodeownersRule),
      mm path (normalizeCodeownersPattern r1.pattern) = true →
      mm path (normalizeCodeownersPattern r2.pattern) = true →
      (∀ r3 ∈ post, mm path (normalizeCodeownersPattern r3.pattern) = false) →
      ownersForFile mm (pre ++ r1 :: mid ++ r2 :: post) path = r2.owners) := by
  refine ⟨?_, ?_, ?_⟩
  · intro rules h
    unfold ownersForFile
    by_cases he : rules.isEmpty
    · simp [he]
    · simp [he]
      exact ownersForFileGo_no_match mm path rules [] h
  · intro pre post r hr hpost
    exact ownersForFile_last_match mm path pre post r hr hpost
  · intro pre mid post r1 r2 _ hr2 hpost
    have : pre ++ r1 :: mid ++ r2 :: post = (pre ++ r1 :: mid) ++ r2 :: post := by
      simp
    rw [this]
    exact ownersForFile_last_match mm path (pre ++ r1 :: mid) post r2 hr2 hpost

/-- Witness for C1 at concrete inputs: with a matcher accepting exactly the
normalized pattern of x-rules, a rule list where only the second rule
matches resolves to the second rule's owners, a list where both rules match
resolves to the later one's owners, and a non-matching list resolves to no
owners. -/
theorem C1_witness :
    ownersForFile (fun _ pat => pat == "**/x") [⟨"y", ["o1"], []⟩, ⟨"x", ["o2"], []⟩] "f" =
      ["o2"] ∧
    ownersForFile (fun _ _ => true) [⟨"x", ["o1"], []⟩, ⟨"x", ["o2"], []⟩] "f" = ["o2"] ∧
    ownersForFile (fun _ pat => pat == "**/x") [⟨"y", ["o1"], []⟩] "f" = [] := by
  refine ⟨?_, ?_, ?_⟩
  · exact (C1_theorem (fun _ pat => pat == "**/x") "f").2.1 [⟨"y", ["o1"], []⟩] []
      ⟨"x", ["o2"], []⟩ (by decide) (by decide)
  · exact (C1_theorem (fun _ _ => true) "f").2.2 [] [] [] ⟨"x", ["o1"], []⟩
      ⟨"x", ["o2"], []⟩ (by decide) (by decide) (by decide)
  · exact (C1_theorem (fun _ pat => pat == "**/x") "f").1 [⟨"y", ["o1"], []⟩] (by decide)

-- -------------------- Load penalty (C3) --------------------

theorem jsRound_mono {x y : ℚ} (h : x ≤ y) : jsRound x ≤ jsRound y := by
  rw [jsRound_eq_floor, jsRound_eq_floor]
  exact Int.floor_le_floor (by linarith)

/-- Claim C3 counterexample: the claim asserts the load-penalized
(rounded) score is strictly positive for every positive base score and
finite open-review count, but a base score of 1 with 4 open reviews is
penalized to round(1 × 1/(1 + 4/3)) = round(3/7) = 0. -/
theorem C3_counterexample :
    (0 : ℚ) < 1 ∧ jsRound (applyLoadPenalty 1 4) = 0 := by
  constructor
  · norm_num
  · with_unfolding_all rfl

/-- Claim C3 (amended): the load-penalized score equals
round(s × 1/(1 + n/3)) and is monotonically non-increasing in the
open-review count; the unrounded penalized value s × 1/(1 + n/3) is
strictly positive for s > 0 for any finite n (the formula itself never
reaches zero), but the rounded score stored by the pipeline can be zero
once the value drops below 1/2. -/
theorem C3_theorem (s : ℚ) (hs : 0 < s) (m n : ℕ) (hmn : m ≤ n) :
    jsRound (applyLoadPenalty s (n : ℚ)) ≤ jsRound (applyLoadPenalty s (m : ℚ)) ∧
    0 < applyLoadPenalty s (n : ℚ) ∧
    (∀ (lc : List (String × Nat)) (r : RankedCandidate),
      (penalizeCandidate lc r).score =
        (jsRound (applyLoadPenalty (r.score : ℚ) ((mapGetD lc r.login 0 : ℕ) : ℚ))).toNat) := by
  have hm3 : (0 : ℚ) < 1 + (m : ℚ) / 3 := by positivity
  have hn3 : (0 : ℚ) < 1 + (n : ℚ) / 3 := by positivity
  refine ⟨?_, ?_, ?_⟩
  · apply jsRound_mono
    unfold applyLoadPenalty
    have hcast : (m : ℚ) ≤ (n : ℚ) := Nat.cast_le.mpr hmn
    have hle : 1 + (n : ℚ) / 3 ≥ 1 + (m : ℚ) / 3 := by linarith
    have hdiv : 1 / (1 + (n : ℚ) / 3) ≤ 1 / (1 + (m : ℚ) / 3) :=
      one_div_le_one_div_of_le hm3 hle
    exact mul_le_mul_of_nonneg_left hdiv hs.le
  · unfold applyLoadPenalty
    have : 0 < 1 / (1 + (n : ℚ) / 3) := by positivity
    exact mul_pos hs this
  · intro lc r
    rfl

/-- Witness for C3 at concrete inputs: a base score of 40 penalized at 10
open reviews is at most the score penalized at 2 open reviews, and the
unrounded penalty at 10 open reviews is positive. -/
theorem C3_witness :
    jsRound (applyLoadPenalty 40 ((10 : ℕ) : ℚ)) ≤
      jsRound (applyLoadPenalty 40 ((2 : ℕ) : ℚ)) ∧
    0 < applyLoadPenalty 40 ((10 : ℕ) : ℚ) :=
  ⟨(C3_theorem 40 (by norm_num) 2 10 (by norm_num)).1,
   (C3_theorem 40 (by norm_num) 2 10 (by norm_num)).2.1⟩

-- -------------------- Confidence classification (C9) --------------------

/-- Claim C9: the confidence label is High exactly when the top score is
at least 12, coverage at least one half and separation at least one
quarter; otherwise Medium exactly when the top score is at least 6 and
coverage at least one quarter; otherwise Low; separation is defined as
(top - second)/top and is 0 when the top score is 0, so the confidence is
Low whenever the top score is 0. -/
theorem C9_theorem (mm : String → String → Bool) (ranked : List RankedCandidate)
    (changedFiles : List String) (rules : List CodeownersRule)
    (fileAuthors : List (String × List String)) :
    (computeConfidence mm ranked changedFiles rules fileAuthors = Confidence.High ↔
      12 ≤ topScoreOf ranked ∧
      (1/2 : ℚ) ≤ coverageRatioOf mm changedFiles rules fileAuthors ∧
      (1/4 : ℚ) ≤ separationOf ranked) ∧
    (computeConfidence mm ranked changedFiles rules fileAuthors = Confidence.Medium ↔
      ¬(12 ≤ topScoreOf ranked ∧
        (1/2 : ℚ) ≤ coverageRatioOf mm changedFiles rules fileAuthors ∧
        (1/4 : ℚ) ≤ separationOf ranked) ∧
      6 ≤ topScoreOf ranked ∧
      (1/4 : ℚ) ≤ coverageRatioOf mm changedFiles rules fileAuthors) ∧
    (0 < topScoreOf ranked →
      separationOf ranked =
        ((topScoreOf ranked : ℚ) - (secondScoreOf ranked : ℚ)) / (topScoreOf ranked : ℚ)) ∧
    (topScoreOf ranked = 0 →
      separationOf ranked = 0 ∧
      computeConfidence mm ranked changedFiles rules fileAuthors = Confidence.Low) := by
  have hsep : 0 < topScoreOf ranked →
      separationOf ranked =
        ((topScoreOf ranked : ℚ) - (secondScoreOf ranked : ℚ)) / (topScoreOf ranked : ℚ) := by
    intro hpos
    unfold separationOf
    rw [if_pos hpos]
  have hsep0 : topScoreOf ranked = 0 → separationOf ranked = 0 := by
    intro h0
    unfold separationOf
    rw [if_neg (by omega)]
  unfold computeConfidence
  by_cases hHigh : 12 ≤ topScoreOf ranked ∧
      (1/2 : ℚ) ≤ coverageRatioOf mm changedFiles rules fileAuthors ∧
      (1/4 : ℚ) ≤ separationOf ranked
  · rw [if_pos hHigh]
    refine ⟨⟨fun _ => hHigh, fun _ => rfl⟩, ?_, hsep, ?_⟩
    · exact ⟨fun h => Confidence.noConfusion h, fun ⟨hnot, _⟩ => absurd hHigh hnot⟩
    · intro h0
      exact absurd hHigh (by omega)
  · rw [if_neg hHigh]
    by_cases hMed : 6 ≤ topScoreOf ranked ∧
        (1/4 : ℚ) ≤ coverageRatioOf mm changedFiles rules fileAuthors
    · rw [if_pos hMed]
      refine ⟨?_, ⟨fun _ => ⟨hHigh, hMed⟩, fun _ => rfl⟩, hsep, ?_⟩
      · exact ⟨fun h => Confidence.noConfusion h, fun hh => absurd hh (by tauto)⟩
      · intro h0
        exact absurd hMed (by omega)
    · rw [if_neg hMed]
      refine ⟨?_, ?_, hsep, ?_⟩
      · exact ⟨fun h => Confidence.noConfusion h, fun hh => absurd hh (by tauto)⟩
      · exact ⟨fun h => Confidence.noConfusion h, fun ⟨_, hh⟩ => absurd hh hMed⟩
      · intro h0
        exact ⟨hsep0 h0, rfl⟩

/-- Witness for C9 at a concrete input: an empty ranking has top score 0
and classifies as Low. -/
theorem C9_witness :
    separationOf [] = 0 ∧
    computeConfidence (fun _ _ => false) [] ["f"] [] [] = Confidence.Low :=
  (C9_theorem (fun _ _ => false) [] ["f"] [] []).2.2.2 rfl

-- -------------------- Key-uniqueness machinery --------------------

theorem mem_keysOf_mapSet {α : Type} (m : List (String × α)) (k x : String) (v : α)
    (hx : x ∈ keysOf (mapSet m k v)) : x ∈ keysOf m ∨ x = k := by
  rcases List.mem_map.mp hx with ⟨q, hq, hqx⟩
  rcases mem_mapSet_elim m k v q hq with ⟨h1, _⟩ | h1
  · exact Or.inr (hqx ▸ h1)
  · exact Or.inl (List.mem_map.mpr ⟨q, h1, hqx⟩)

theorem nodupKeys_mapSet {α : Type} (m : List (String × α)) (k : String) (v : α)
    (h : (keysOf m).Nodup) : (keysOf (mapSet m k v)).Nodup := by
  induction m with
  | nil => simp [mapSet, keysOf]
  | cons hd t ih =>
    obtain ⟨k2, v2⟩ := hd
    by_cases hk : k2 = k
    · subst hk
      simpa [mapSet, keysOf] using h
    · have hcons : (k2 :: keysOf t).Nodup := by simpa [keysOf] using h
      have h1 : k2 ∉ keysOf t := (List.nodup_cons.mp hcons).1
      have h2 : (keysOf t).Nodup := (List.nodup_cons.mp hcons).2
      have h3 := ih h2
      have h4 : k2 ∉ keysOf (mapSet t k v) := by
        intro hmem
        rcases mem_keysOf_mapSet t k k2 v hmem with hin | heq
        · exact h1 hin
        · exact hk heq
      simp only [mapSet, if_neg hk, keysOf, List.map_cons, List.nodup_cons]
      exact ⟨fun hm => h4 (by simpa [keysOf] using hm), by simpa [keysOf] using h3⟩

theorem lookupKey_none_of_not_mem_keys {α : Type} (m : List (String × α)) (k : String)
    (h : k ∉ keysOf m) : lookupKey m k = none := by
  induction m with
  | nil => rfl
  | cons hd t ih =>
    obtain ⟨k2, v2⟩ := hd
    have hk : k2 ≠ k := by
      intro hh
      exact h (by simp [keysOf, hh])
    simp only [lookupKey, if_neg hk]
    exact ih (fun hm => h (by simp [keysOf] at hm ⊢; exact Or.inr hm))

theorem mem_keys_of_lookupKey_some {α : Type} (m : List (String × α)) (k : String)
    (v : α) (h : lookupKey m k = some v) : k ∈ keysOf m := by
  have := lookupKey_eq_some_mem m k v h
  exact List.mem_map.mpr ⟨(k, v), this, rfl⟩

-- -------------------- Latency map lemmas (C8) --------------------

theorem nodupKeys_pushHour (per : List (String × List ℚ)) (login : String) (h : ℚ)
    (hnd : (keysOf per).Nodup) : (keysOf (pushHour per login h)).Nodup := by
  unfold pushHour
  cases lookupKey per login with
  | none => exact nodupKeys_mapSet per login [h] hnd
  | some arr => exact nodupKeys_mapSet per login (arr ++ [h]) hnd

theorem accumulateLatency_nodupKeys (since : ℚ) (prs : List LatencyPR) :
    (keysOf (accumulateLatency since prs)).Nodup := by
  unfold accumulateLatency
  apply foldl_preserves (fun per => (keysOf per).Nodup)
  · simp [keysOf]
  · intro per pr _ hper
    by_cases h1 : pr.mergedOrClosed = false
    · simpa [h1] using hper
    · by_cases h2 : pr.createdAt < since
      · simp [h1, h2]
        exact hper
      · simp [h1, h2]
        apply foldl_preserves (fun per => (keysOf per).Nodup)
        · exact hper
        · intro per2 p _ hper2
          by_cases h3 : (p.2 - pr.createdAt) / 3600000 < 0
          · simpa [h3] using hper2
          · simpa [h3] using nodupKeys_pushHour per2 p.1 _ hper2

theorem lookup_latencyFinalizeAux (pr : List (String × List ℚ))
    (out : List (String × ℚ)) (login : String)
    (hnd : (keysOf pr).Nodup)
    (hout : login ∈ keysOf pr → lookupKey out login = none) :
    lookupKey (latencyFinalizeAux out pr) login =
      ((lookupKey pr login).bind median).orElse (fun _ => lookupKey out login) := by
  induction pr generalizing out with
  | nil => simp [latencyFinalizeAux, lookupKey]
  | cons hd t ih =>
    obtain ⟨k, arr⟩ := hd
    have hcons : (k :: keysOf t).Nodup := by simpa [keysOf] using hnd
    have hknotin : k ∉ keysOf t := (List.nodup_cons.mp hcons).1
    have hndt : (keysOf t).Nodup := (List.nodup_cons.mp hcons).2
    by_cases hkl : k = login
    · subst hkl
      have hlt : lookupKey t k = none := lookupKey_none_of_not_mem_keys t k hknotin
      cases hmed : median arr with
      | none =>
        simp only [latencyFinalizeAux, hmed]
        rw [ih out hndt (fun hm => absurd hm hknotin)]
        simp [lookupKey, hlt, hmed, hout (by simp [keysOf])]
      | some mv =>
        simp only [latencyFinalizeAux, hmed]
        rw [ih (mapSet out k mv) hndt (fun hm => absurd hm hknotin)]
        simp [lookupKey, hlt, hmed, lookupKey_mapSet_self]
    · have hout2 : login ∈ keysOf t → lookupKey out login = none := by
        intro hm
        exact hout (by simp [keysOf] at hm ⊢; exact Or.inr hm)
      cases hmed : median arr with
      | none =>
        simp only [latencyFinalizeAux, hmed]
        rw [ih out hndt hout2]
        simp [lookupKey, hkl]
      | some mv =>
        simp only [latencyFinalizeAux, hmed]
        have hout3 : login ∈ keysOf t → lookupKey (mapSet out k mv) login = none := by
          intro hm
          rw [lookupKey_mapSet_of_ne out k login mv hkl]
          exact hout2 hm
        rw [ih (mapSet out k mv) hndt hout3]
        simp [lookupKey, hkl, lookupKey_mapSet_of_ne out k login mv hkl]

/-- Claim C8: for every login the computed latency record is the median of
its accumulated hours list (so a login with no accumulated sample has no
record at all); the median of a non-empty list is the middle element of
the sorted list for odd length and the average of the two middle elements
for even length; and the bonus is 6, 4, 2, 1 or 0 points for a median of
at most 4, 12, 24, 48 hours or more, respectively. -/
theorem C8_theorem :
    (∀ (since : ℚ) (prs : List LatencyPR) (login : String),
      lookupKey (computeReviewerLatencyHours since prs) login =
        (lookupKey (accumulateLatency since prs) login).bind median) ∧
    (∀ arr : List ℚ, arr ≠ [] →
      ((sortAsc arr).length % 2 = 1 →
        median arr = some ((sortAsc arr).getD ((sortAsc arr).length / 2) 0)) ∧
      ((sortAsc arr).length % 2 = 0 →
        median arr = some (((sortAsc arr).getD ((sortAsc arr).length / 2 - 1) 0 +
          (sortAsc arr).getD ((sortAsc arr).length / 2) 0) / 2))) ∧
    (∀ m : ℚ,
      (m ≤ 4 → latencyBonusHours (some m) = 6) ∧
      (4 < m → m ≤ 12 → latencyBonusHours (some m) = 4) ∧
      (12 < m → m ≤ 24 → latencyBonusHours (some m) = 2) ∧
      (24 < m → m ≤ 48 → latencyBonusHours (some m) = 1) ∧
      (48 < m → latencyBonusHours (some m) = 0)) := by
  refine ⟨?_, ?_, ?_⟩
  · intro since prs login
    unfold computeReviewerLatencyHours
    rw [lookup_latencyFinalizeAux (accumulateLatency since prs) [] login
      (accumulateLatency_nodupKeys since prs) (fun _ => rfl)]
    cases (lookupKey (accumulateLatency since prs) login).bind median with
    | none => rfl
    | some v => rfl
  · intro arr harr
    constructor
    · intro hodd
      unfold median
      rw [if_neg harr, if_pos hodd]
    · intro heven
      unfold median
      rw [if_neg harr, if_neg (by omega)]
  · intro m
    refine ⟨?_, ?_, ?_, ?_, ?_⟩
    · intro h
      show (if m ≤ 4 then 6 else if m ≤ 12 then 4 else if m ≤ 24 then 2
        else if m ≤ 48 then 1 else 0) = 6
      rw [if_pos h]
    · intro h1 h2
      show (if m ≤ 4 then 6 else if m ≤ 12 then 4 else if m ≤ 24 then 2
        else if m ≤ 48 then 1 else 0) = 4
      rw [if_neg (by linarith), if_pos h2]
    · intro h1 h2
      show (if m ≤ 4 then 6 else if m ≤ 12 then 4 else if m ≤ 24 then 2
        else if m ≤ 48 then 1 else 0) = 2
      rw [if_neg (by linarith), if_neg (by linarith), if_pos h2]
    · intro h1 h2
      show (if m ≤ 4 then 6 else if m ≤ 12 then 4 else if m ≤ 24 then 2
        else if m ≤ 48 then 1 else 0) = 1
      rw [if_neg (by linarith), if_neg (by linarith), if_neg (by linarith), if_pos h2]
    · intro h1
      show (if m ≤ 4 then 6 else if m ≤ 12 then 4 else if m ≤ 24 then 2
        else if m ≤ 48 then 1 else 0) = 0
      rw [if_neg (by linarith), if_neg (by linarith), if_neg (by linarith),
        if_neg (by linarith)]

/-- Witness for C8 at concrete inputs: a login reviewing twice on one
sampled PR gets the median of its single earliest-latency sample while an
absent login has no record, an even-length list has the average-of-middles
median, and the concrete bonus values follow the step function. -/
theorem C8_witness :
    lookupKey
        (computeReviewerLatencyHours 0
          [⟨true, 0, [⟨some "eve", some 7200000⟩, ⟨some "eve", some 3600000⟩]⟩]) "eve" =
      (lookupKey
        (accumulateLatency 0
          [⟨true, 0, [⟨some "eve", some 7200000⟩, ⟨some "eve", some 3600000⟩]⟩]) "eve").bind
        median ∧
    lookupKey
        (computeReviewerLatencyHours 0
          [⟨true, 0, [⟨some "eve", some 7200000⟩, ⟨some "eve", some 3600000⟩]⟩]) "zed" =
      none ∧
    median [4, 1, 3, 2] = some ((5 : ℚ)/2) ∧
    latencyBonusHours (some 3) = 6 ∧ latencyBonusHours (some 13) = 2 ∧
    latencyBonusHours (some 50) = 0 := by
  refine ⟨C8_theorem.1 0 _ "eve", ?_, ?_, ?_, ?_, ?_⟩
  · rw [C8_theorem.1 0 _ "zed"]
    with_unfolding_all rfl
  · have h := (C8_theorem.2.1 [4, 1, 3, 2] (by simp)).2 (by with_unfolding_all rfl)
    rw [h]
    with_unfolding_all rfl
  · exact C8_theorem.2.2 3 |>.1 (by norm_num)
  · exact (C8_theorem.2.2 13).2.2.1 (by norm_num) (by norm_num)
  · exact (C8_theorem.2.2 50).2.2.2.2 (by norm_num)

-- -------------------- Set and map auxiliary lemmas --------------------

theorem mem_setAdd_self (s : List String) (r : String) : r ∈ setAdd s r := by
  unfold setAdd
  by_cases h : s.contains r
  · rw [if_pos h]
    exact List.mem_of_elem_eq_true h
  · rw [if_neg h]
    exact List.mem_append_right _ (List.mem_singleton.mpr rfl)

theorem mem_setAdd_of_mem (s : List String) (r x : String) (hx : x ∈ s) :
    x ∈ setAdd s r := by
  unfold setAdd
  by_cases h : s.contains r
  · rw [if_pos h]
    exact hx
  · rw [if_neg h]
    exact List.mem_append_left _ hx

theorem not_mem_setAdd (s : List String) (r x : String) (hx : x ∉ s) (hxr : x ≠ r) :
    x ∉ setAdd s r := by
  unfold setAdd
  by_cases h : s.contains r
  · rw [if_pos h]
    exact hx
  · rw [if_neg h]
    intro hmem
    rcases List.mem_append.mp hmem with h1 | h1
    · exact hx h1
    · exact hxr (List.mem_singleton.mp h1)

theorem mapGetD_mem_of_ne_default (m : List (String × Nat)) (k : String)
    (h : mapGetD m k 0 ≠ 0) : (k, mapGetD m k 0) ∈ m := by
  unfold mapGetD at h ⊢
  cases hl : lookupKey m k with
  | none => rw [hl] at h; simp at h
  | some v => simpa using lookupKey_eq_some_mem m k v hl

-- -------------------- Stable sort lemmas --------------------

theorem mem_insertByScoreDesc {α : Type} (key : α → Nat) (x y : α) (l : List α) :
    y ∈ insertByScoreDesc key x l ↔ y = x ∨ y ∈ l := by
  induction l with
  | nil => simp [insertByScoreDesc]
  | cons h t ih =>
    unfold insertByScoreDesc
    by_cases hc : key h ≤ key x
    · rw [if_pos hc]
      simp
    · rw [if_neg hc]
      simp [ih]
      tauto

theorem mem_sortByScoreDesc {α : Type} (key : α → Nat) (y : α) (l : List α) :
    y ∈ sortByScoreDesc key l ↔ y ∈ l := by
  induction l with
  | nil => simp [sortByScoreDesc]
  | cons h t ih =>
    unfold sortByScoreDesc
    rw [mem_insertByScoreDesc]
    simp [ih]

-- -------------------- addCand lemmas --------------------

theorem addCand_scores_elim (prAuthor : String) (st : RankState) (login : String)
    (pts : Nat) (reason : String) (q : String × Nat)
    (hq : q ∈ (addCand prAuthor st login pts reason).scores) :
    q ∈ st.scores ∨
      (q.1 = login ∧ isBotLogin login = false ∧ login ≠ prAuthor ∧
        q.2 = mapGetD st.scores login 0 + pts) := by
  unfold addCand at hq
  by_cases hb : isBotLogin login
  · rw [if_pos hb] at hq
    exact Or.inl hq
  · rw [if_neg hb] at hq
    by_cases hp : login = prAuthor
    · rw [if_pos hp] at hq
      exact Or.inl hq
    · rw [if_neg hp] at hq
      simp only at hq
      rcases mem_mapSet_elim st.scores login (mapGetD st.scores login 0 + pts) q hq with
        h1 | h1
      · exact Or.inr ⟨h1.1, Bool.not_eq_true _ ▸ (by simpa using hb), hp, h1.2⟩
      · exact Or.inl h1

theorem addCand_scores_get_self (prAuthor : String) (st : RankState) (login : String)
    (pts : Nat) (reason : String) (hb : isBotLogin login = false)
    (hp : login ≠ prAuthor) :
    mapGetD (addCand prAuthor st login pts reason).scores login 0 =
      mapGetD st.scores login 0 + pts := by
  unfold addCand
  rw [if_neg (by simp [hb]), if_neg hp]
  exact mapGetD_mapSet_self _ _ _ _

theorem addCand_scores_get_other (prAuthor : String) (st : RankState) (login k : String)
    (pts : Nat) (reason : String) (hk : k ≠ login) :
    mapGetD (addCand prAuthor st login pts reason).scores k 0 =
      mapGetD st.scores k 0 := by
  unfold addCand
  by_cases hb : isBotLogin login
  · rw [if_pos hb]
  · rw [if_neg hb]
    by_cases hp : login = prAuthor
    · rw [if_pos hp]
    · rw [if_neg hp]
      exact mapGetD_mapSet_of_ne _ _ _ _ _ (fun h => hk h.symm)

theorem reasonsAddReason_get_self (m : List (String × List String)) (k r : String) :
    r ∈ mapGetD (reasonsAddReason m k r) k [] := by
  unfold reasonsAddReason
  cases h : lookupKey m k with
  | none =>
    rw [mapGetD_mapSet_self]
    exact mem_setAdd_self [] r
  | some s =>
    rw [mapGetD_mapSet_self]
    exact mem_setAdd_self s r

theorem reasonsAddReason_get_mono (m : List (String × List String)) (k k2 r x : String)
    (hx : x ∈ mapGetD m k2 []) : x ∈ mapGetD (reasonsAddReason m k r) k2 [] := by
  unfold reasonsAddReason
  by_cases hk : k = k2
  · subst hk
    cases h : lookupKey m k with
    | none =>
      unfold mapGetD at hx
      rw [h] at hx
      simp at hx
    | some s =>
      rw [mapGetD_mapSet_self]
      unfold mapGetD at hx
      rw [h] at hx
      exact mem_setAdd_of_mem s r x hx
  · cases h : lookupKey m k with
    | none =>
      rw [mapGetD_mapSet_of_ne _ _ _ _ _ hk]
      exact hx
    | some s =>
      rw [mapGetD_mapSet_of_ne _ _ _ _ _ hk]
      exact hx

theorem addCand_reason_mem_self (prAuthor : String) (st : RankState) (login : String)
    (pts : Nat) (reason : String) (hb : isBotLogin login = false)
    (hp : login ≠ prAuthor) :
    reason ∈ mapGetD (addCand prAuthor st login pts reason).reasons login [] := by
  unfold addCand
  rw [if_neg (by simp [hb]), if_neg hp]
  exact reasonsAddReason_get_self st.reasons login reason

theorem addCand_reason_mem_mono (prAuthor : String) (st : RankState) (login k : String)
    (pts : Nat) (reason x : String) (hx : x ∈ mapGetD st.reasons k []) :
    x ∈ mapGetD (addCand prAuthor st login pts reason).reasons k [] := by
  unfold addCand
  by_cases hb : isBotLogin login
  · rw [if_pos hb]
    exact hx
  · rw [if_neg hb]
    by_cases hp : login = prAuthor
    · rw [if_pos hp]
      exact hx
    · rw [if_neg hp]
      exact reasonsAddReason_get_mono st.reasons login k reason x hx

-- -------------------- Scores-key invariant through the rank steps --------------------

/-- The keys of the score map are never bots and never the PR author. -/
theorem keysOk_addCand (prAuthor : String) (st : RankState) (login : String)
    (pts : Nat) (reason : String) (h : keysOk prAuthor st) :
    keysOk prAuthor (addCand prAuthor st login pts reason) := by
  intro q hq
  rcases addCand_scores_elim prAuthor st login pts reason q hq with h1 | h1
  · exact h q h1
  · exact ⟨h1.1 ▸ h1.2.1, h1.1 ▸ h1.2.2.1⟩

theorem keysOk_commitStep (prAuthor : String) (wch : Nat)
    (fileAuthors : List (String × List String)) (st : RankState)
    (h : keysOk prAuthor st) : keysOk prAuthor (commitStep prAuthor wch fileAuthors st) := by
  unfold commitStep
  apply foldl_preserves (keysOk prAuthor) _ _ _ h
  intro st2 pa _ h2
  apply foldl_preserves (keysOk prAuthor) _ _ _ h2
  intro st3 ia _ h3
  exact keysOk_addCand prAuthor st3 ia.2 _ _ h3

theorem keysOk_codeownersStep (mm : String → String → Bool) (prAuthor : String)
    (wco : Nat) (rules : List CodeownersRule) (changedFiles : List String)
    (st : RankState) (h : keysOk prAuthor st) :
    keysOk prAuthor (codeownersStep mm prAuthor wco rules changedFiles st) := by
  unfold codeownersStep
  by_cases hg : 0 < wco ∧ rules ≠ []
  · rw [if_pos hg]
    have : ∀ acc : List String × RankState, keysOk prAuthor acc.2 →
        keysOk prAuthor (changedFiles.foldl
          (fun acc f => codeownersFileStep mm prAuthor wco rules f acc) acc).2 := by
      intro acc hacc
      apply foldl_preserves (fun acc : List String × RankState => keysOk prAuthor acc.2)
        _ _ _ hacc
      intro acc2 f _ h2
      unfold codeownersFileStep
      apply foldl_preserves (fun acc : List String × RankState => keysOk prAuthor acc.2)
        _ _ _ h2
      intro acc3 o _ h3
      by_cases ho : o = ""
      · simpa [ho] using h3
      · rw [if_neg ho]
        by_cases hseen : acc3.1.contains (o ++ "::" ++ f) = true
        · rw [if_pos hseen]
          exact h3
        · rw [if_neg hseen]
          exact keysOk_addCand prAuthor acc3.2 o wco "CODEOWNERS" h3
    exact this ([], st) h
  · rw [if_neg hg]
    exact h

theorem keysOk_latencyStep (prAuthor : String) (wlat : Nat)
    (latencyMap : List (String × ℚ)) (st : RankState) (h : keysOk prAuthor st) :
    keysOk prAuthor (latencyStep prAuthor wlat latencyMap st) := by
  unfold latencyStep
  by_cases hg : 0 < wlat ∧ latencyMap ≠ []
  · rw [if_pos hg]
    apply foldl_preserves (keysOk prAuthor) _ _ _ h
    intro st2 p _ h2
    by_cases hb : 0 < latencyBonusHours (some p.2) * wlat
    · rw [if_pos hb]
      exact keysOk_addCand prAuthor st2 p.1 _ _ h2
    · rw [if_neg hb]
      exact h2
  · rw [if_neg hg]
    exact h

theorem keysOk_crossRepoStep (prAuthor : String) (cre : List (String × Nat))
    (st : RankState) (h : keysOk prAuthor st) :
    keysOk prAuthor (crossRepoStep prAuthor cre st) := by
  unfold crossRepoStep
  by_cases hg : cre ≠ []
  · rw [if_pos hg]
    apply foldl_preserves (keysOk prAuthor) _ _ _ h
    intro st2 p _ h2
    exact keysOk_addCand prAuthor st2 p.1 _ _ h2
  · rw [if_neg hg]
    exact h

theorem keysOk_timezoneStep (prAuthor : String) (tz : Option TimezoneData)
    (st : RankState) (h : keysOk prAuthor st) :
    keysOk prAuthor (timezoneStep prAuthor tz st) := by
  unfold timezoneStep
  cases tz with
  | none => exact h
  | some td =>
    apply foldl_preserves (keysOk prAuthor) _ _ _ h
    intro st2 p _ h2
    by_cases hb : 0 < timezoneBonus p.2 td.preferredOffset
    · rw [if_pos hb]
      exact keysOk_addCand prAuthor st2 p.1 _ _ h2
    · rw [if_neg hb]
      exact h2

theorem keysOk_requiredStep (prAuthor : String) (required : List String)
    (st : RankState) (h : keysOk prAuthor st) :
    keysOk prAuthor (requiredStep prAuthor required st) := by
  unfold requiredStep
  apply foldl_preserves (keysOk prAuthor) _ _ _ h
  intro st2 login _ h2
  unfold requiredBody
  by_cases h1 : login = prAuthor
  · rw [if_pos h1]
    exact h2
  · rw [if_neg h1]
    by_cases hb : isBotLogin login
    · rw [if_pos hb]
      exact h2
    · rw [if_neg hb]
      by_cases h0 : mapGetD st2.scores login 0 = 0
      · rw [if_pos h0]
        exact keysOk_addCand prAuthor st2 login 10 "required reviewer" h2
      · rw [if_neg h0]
        exact keysOk_addCand prAuthor st2 login 5 "required reviewer" h2

theorem keysOk_rankFinalState (mm : String → String → Bool) (inp : RankInput) :
    keysOk inp.prAuthor (rankFinalState mm inp) := by
  unfold rankFinalState preRequiredState
  apply keysOk_requiredStep
  apply keysOk_timezoneStep
  apply keysOk_crossRepoStep
  apply keysOk_latencyStep
  apply keysOk_codeownersStep
  apply keysOk_commitStep
  intro q hq
  simp at hq

theorem rankCandidates_login_ok (mm : String → String → Bool) (inp : RankInput)
    (r : RankedCandidate) (hr : r ∈ rankCandidates mm inp) :
    isBotLogin r.login = false ∧ r.login ≠ inp.prAuthor := by
  unfold rankCandidates at hr
  simp only [List.mem_map] at hr
  rcases hr with ⟨p, hp, hpr⟩
  have hmem : p ∈ (rankFinalState mm inp).scores :=
    (mem_sortByScoreDesc (fun p => p.2) p _).mp hp
  have := keysOk_rankFinalState mm inp p hmem
  rw [← hpr]
  exact this

-- -------------------- Pipeline membership lemmas --------------------

theorem penalizeCandidate_login (loadCounts : List (String × Nat))
    (r : RankedCandidate) : (penalizeCandidate loadCounts r).login = r.login := rfl

theorem penalizeCandidate_reasons (loadCounts : List (String × Nat))
    (r : RankedCandidate) : (penalizeCandidate loadCounts r).reasons = r.reasons := rfl

theorem flakyCandidate_login (flaky : List String) (r : RankedCandidate) :
    (flakyCandidate flaky r).login = r.login := by
  unfold flakyCandidate
  by_cases h : flaky.contains (toLowerCase r.login)
  · rw [if_pos h]
  · rw [if_neg h]

theorem mem_excludeFilter_elim (excluded : List String) (l : List RankedCandidate)
    (r : RankedCandidate) (hr : r ∈ excludeFilter excluded l) :
    r ∈ l ∧ excluded.contains (toLowerCase r.login) = false := by
  unfold excludeFilter at hr
  have := List.mem_filter.mp hr
  refine ⟨this.1, ?_⟩
  have h2 := this.2
  simpa using h2

theorem mem_applyLoadStep_elim (penalizeLoad : Bool) (loadCounts : List (String × Nat))
    (l : List RankedCandidate) (r : RankedCandidate)
    (hr : r ∈ applyLoadStep penalizeLoad loadCounts l) :
    r ∈ l ∨ ∃ r0 ∈ l, r = penalizeCandidate loadCounts r0 := by
  unfold applyLoadStep at hr
  by_cases hp : penalizeLoad = true
  · rw [if_pos hp] at hr
    have := (mem_sortByScoreDesc _ r _).mp hr
    rcases List.mem_map.mp this with ⟨r0, hr0, hre⟩
    exact Or.inr ⟨r0, hr0, hre.symm⟩
  · rw [if_neg hp] at hr
    exact Or.inl hr

theorem mem_applyFlakyStep_elim (flaky : List String) (l : List RankedCandidate)
    (r : RankedCandidate) (hr : r ∈ applyFlakyStep flaky l) :
    r ∈ l ∨ ∃ r0 ∈ l, r = flakyCandidate flaky r0 := by
  unfold applyFlakyStep at hr
  by_cases hf : flaky = []
  · rw [if_pos hf] at hr
    exact Or.inl hr
  · rw [if_neg hf] at hr
    have := (mem_sortByScoreDesc _ r _).mp hr
    rcases List.mem_map.mp this with ⟨r0, hr0, hre⟩
    exact Or.inr ⟨r0, hr0, hre.symm⟩

theorem mem_analyzeRanked_login (mm : String → String → Bool) (inp : RankInput)
    (excluded : List String) (penalizeLoad : Bool) (loadCounts : List (String × Nat))
    (flaky : List String) (r : RankedCandidate)
    (hr : r ∈ analyzeRanked mm inp excluded penalizeLoad loadCounts flaky) :
    ∃ r0 ∈ rankCandidates mm inp,
      r.login = r0.login ∧ excluded.contains (toLowerCase r0.login) = false := by
  unfold analyzeRanked at hr
  rcases mem_applyFlakyStep_elim _ _ _ hr with h1 | ⟨r1, hr1, hre1⟩
  · rcases mem_applyLoadStep_elim _ _ _ _ h1 with h2 | ⟨r2, hr2, hre2⟩
    · rcases mem_excludeFilter_elim _ _ _ h2 with ⟨h3, h4⟩
      exact ⟨r, h3, rfl, h4⟩
    · rcases mem_excludeFilter_elim _ _ _ hr2 with ⟨h3, h4⟩
      exact ⟨r2, h3, by rw [hre2, penalizeCandidate_login], h4⟩
  · rcases mem_applyLoadStep_elim _ _ _ _ hr1 with h2 | ⟨r2, hr2, hre2⟩
    · rcases mem_excludeFilter_elim _ _ _ h2 with ⟨h3, h4⟩
      exact ⟨r1, h3, by rw [hre1, flakyCandidate_login], h4⟩
    · rcases mem_excludeFilter_elim _ _ _ hr2 with ⟨h3, h4⟩
      refine ⟨r2, h3, ?_, h4⟩
      rw [hre1, flakyCandidate_login, hre2, penalizeCandidate_login]

/-- Claim C2: the PR author's login and bot-like logins are never scored
and never appear in the ranking: every candidate produced by
rankCandidates, and every candidate surviving the full analyzeReviewers
pipeline, has a non-bot login different from the PR author. -/
theorem C2_theorem (mm : String → String → Bool) (inp : RankInput) :
    (∀ r ∈ rankCandidates mm inp,
      isBotLogin r.login = false ∧ r.login ≠ inp.prAuthor) ∧
    (∀ (excluded : List String) (penalizeLoad : Bool)
      (loadCounts : List (String × Nat)) (flaky : List String),
      ∀ r ∈ analyzeRanked mm inp excluded penalizeLoad loadCounts flaky,
        isBotLogin r.login = false ∧ r.login ≠ inp.prAuthor) := by
  constructor
  · intro r hr
    exact rankCandidates_login_ok mm inp r hr
  · intro excluded penalizeLoad loadCounts flaky r hr
    rcases mem_analyzeRanked_login mm inp excluded penalizeLoad loadCounts flaky r hr with
      ⟨r0, hr0, hlogin, _⟩
    have := rankCandidates_login_ok mm inp r0 hr0
    rw [hlogin]
    exact this

/-- Witness for C2 at a concrete input: a ranking driven by commit signal
from the PR author, a bot and a human ranks the human, who is neither a
bot nor the author. -/
theorem C2_witness :
    isBotLogin
        ({ login := "alice", score := 3, reasons := ["recent commits"],
           openReviews := none } : RankedCandidate).login = false ∧
    ({ login := "alice", score := 3, reasons := ["recent commits"],
       openReviews := none } : RankedCandidate).login ≠
      ({ fileAuthors := [("f1", ["alice"])], prAuthor := "zed", codeownersRules := [],
         changedFiles := ["f1"], latencyMap := [],
         weights := { commitHistory := 1, codeowners := 4, latency := 1 },
         crossRepoExpertise := [], timezoneData := none,
         requiredReviewers := [] } : RankInput).prAuthor :=
  (C2_theorem (fun _ _ => false)
    { fileAuthors := [("f1", ["alice"])], prAuthor := "zed", codeownersRules := [],
      changedFiles := ["f1"], latencyMap := [],
      weights := { commitHistory := 1, codeowners := 4, latency := 1 },
      crossRepoExpertise := [], timezoneData := none,
      requiredReviewers := [] }).1
    { login := "alice", score := 3, reasons := ["recent commits"], openReviews := none }
    (by decide)

-- -------------------- Positive-score invariant (C10) --------------------

/-- Every accumulated score is strictly positive. -/
theorem valuesPos_addCand (prAuthor : String) (st : RankState) (login : String)
    (pts : Nat) (reason : String) (hpts : 0 < pts) (h : valuesPos st) :
    valuesPos (addCand prAuthor st login pts reason) := by
  intro q hq
  rcases addCand_scores_elim prAuthor st login pts reason q hq with h1 | h1
  · exact h q h1
  · rw [h1.2.2.2]
    omega

theorem valuesPos_commitStep (prAuthor : String) (wch : Nat)
    (fileAuthors : List (String × List String)) (st : RankState)
    (hw : 1 ≤ wch) (h : valuesPos st) :
    valuesPos (commitStep prAuthor wch fileAuthors st) := by
  unfold commitStep
  apply foldl_preserves valuesPos _ _ _ h
  intro st2 pa _ h2
  apply foldl_preserves valuesPos _ _ _ h2
  intro st3 ia _ h3
  apply valuesPos_addCand _ _ _ _ _ _ h3
  have : 1 ≤ Nat.max 1 (3 - ia.1) := Nat.le_max_left _ _
  exact Nat.mul_pos this hw

theorem valuesPos_codeownersStep (mm : String → String → Bool) (prAuthor : String)
    (wco : Nat) (rules : List CodeownersRule) (changedFiles : List String)
    (st : RankState) (h : valuesPos st) :
    valuesPos (codeownersStep mm prAuthor wco rules changedFiles st) := by
  unfold codeownersStep
  by_cases hg : 0 < wco ∧ rules ≠ []
  · rw [if_pos hg]
    have : ∀ acc : List String × RankState, valuesPos acc.2 →
        valuesPos (changedFiles.foldl
          (fun acc f => codeownersFileStep mm prAuthor wco rules f acc) acc).2 := by
      intro acc hacc
      apply foldl_preserves (fun acc : List String × RankState => valuesPos acc.2)
        _ _ _ hacc
      intro acc2 f _ h2
      unfold codeownersFileStep
      apply foldl_preserves (fun acc : List String × RankState => valuesPos acc.2)
        _ _ _ h2
      intro acc3 o _ h3
      by_cases ho : o = ""
      · simpa [ho] using h3
      · rw [if_neg ho]
        by_cases hseen : acc3.1.contains (o ++ "::" ++ f) = true
        · rw [if_pos hseen]
          exact h3
        · rw [if_neg hseen]
          exact valuesPos_addCand prAuthor acc3.2 o wco "CODEOWNERS" hg.1 h3
    exact this ([], st) h
  · rw [if_neg hg]
    exact h

theorem valuesPos_latencyStep (prAuthor : String) (wlat : Nat)
    (latencyMap : List (String × ℚ)) (st : RankState) (h : valuesPos st) :
    valuesPos (latencyStep prAuthor wlat latencyMap st) := by
  unfold latencyStep
  by_cases hg : 0 < wlat ∧ latencyMap ≠ []
  · rw [if_pos hg]
    apply foldl_preserves valuesPos _ _ _ h
    intro st2 p _ h2
    by_cases hb : 0 < latencyBonusHours (some p.2) * wlat
    · rw [if_pos hb]
      exact valuesPos_addCand prAuthor st2 p.1 _ _ hb h2
    · rw [if_neg hb]
      exact h2
  · rw [if_neg hg]
    exact h

theorem valuesPos_crossRepoStep (prAuthor : String) (cre : List (String × Nat))
    (st : RankState) (hcre : ∀ p ∈ cre, 1 ≤ p.2) (h : valuesPos st) :
    valuesPos (crossRepoStep prAuthor cre st) := by
  unfold crossRepoStep
  by_cases hg : cre ≠ []
  · rw [if_pos hg]
    apply foldl_preserves valuesPos _ _ _ h
    intro st2 p hp h2
    refine valuesPos_addCand _ _ _ _ _ ?_ h2
    have h1 := hcre p hp
    have hmin : Nat.min p.2 5 = if p.2 ≤ 5 then p.2 else 5 := rfl
    rw [hmin]
    split_ifs <;> omega
  · rw [if_neg hg]
    exact h

theorem valuesPos_timezoneStep (prAuthor : String) (tz : Option TimezoneData)
    (st : RankState) (h : valuesPos st) :
    valuesPos (timezoneStep prAuthor tz st) := by
  unfold timezoneStep
  cases tz with
  | none => exact h
  | some td =>
    apply foldl_preserves valuesPos _ _ _ h
    intro st2 p _ h2
    by_cases hb : 0 < timezoneBonus p.2 td.preferredOffset
    · rw [if_pos hb]
      exact valuesPos_addCand prAuthor st2 p.1 _ _ hb h2
    · rw [if_neg hb]
      exact h2

theorem valuesPos_requiredStep (prAuthor : String) (required : List String)
    (st : RankState) (h : valuesPos st) :
    valuesPos (requiredStep prAuthor required st) := by
  unfold requiredStep
  apply foldl_preserves valuesPos _ _ _ h
  intro st2 login _ h2
  unfold requiredBody
  by_cases h1 : login = prAuthor
  · rw [if_pos h1]
    exact h2
  · rw [if_neg h1]
    by_cases hb : isBotLogin login
    · rw [if_pos hb]
      exact h2
    · rw [if_neg hb]
      by_cases h0 : mapGetD st2.scores login 0 = 0
      · rw [if_pos h0]
        exact valuesPos_addCand prAuthor st2 login 10 "required reviewer" (by omega) h2
      · rw [if_neg h0]
        exact valuesPos_addCand prAuthor st2 login 5 "required reviewer" (by omega) h2

theorem bumpCount_values_ge_one (m : List (String × Nat)) (k : String)
    (h : ∀ p ∈ m, 1 ≤ p.2) : ∀ p ∈ bumpCount m k, 1 ≤ p.2 := by
  intro p hp
  rcases mem_mapSet_elim m k (mapGetD m k 0 + 1) p hp with h1 | h1
  · rw [h1.2]
    omega
  · exact h p h1

/-- Claim C10: with the commit-history weight at least 1 (analyzeReviewers
fixes it at 1) and every cross-repo count at least 1 (which
fetchCrossRepoExpertise guarantees, second conjunct), every candidate
entering the pre-penalty ranking has a strictly positive score: every
signal adds a positive amount, so no zero-score candidate exists before
the load and flaky penalties. -/
theorem C10_theorem (mm : String → String → Bool) (inp : RankInput)
    (hw : 1 ≤ inp.weights.commitHistory)
    (hcre : ∀ p ∈ inp.crossRepoExpertise, 1 ≤ p.2) :
    (∀ r ∈ rankCandidates mm inp, 0 < r.score) ∧
    (∀ commitBatches : List (List Commit),
      ∀ p ∈ fetchCrossRepoExpertise commitBatches, 1 ≤ p.2) := by
  constructor
  · intro r hr
    unfold rankCandidates at hr
    simp only [List.mem_map] at hr
    rcases hr with ⟨p, hp, hpr⟩
    have hmem : p ∈ (rankFinalState mm inp).scores :=
      (mem_sortByScoreDesc (fun p => p.2) p _).mp hp
    have hpos : valuesPos (rankFinalState mm inp) := by
      unfold rankFinalState preRequiredState
      apply valuesPos_requiredStep
      apply valuesPos_timezoneStep
      apply valuesPos_crossRepoStep _ _ _ hcre
      apply valuesPos_latencyStep
      apply valuesPos_codeownersStep
      apply valuesPos_commitStep _ _ _ _ hw
      intro q hq
      simp at hq
    have := hpos p hmem
    rw [← hpr]
    exact this
  · intro commitBatches
    unfold fetchCrossRepoExpertise
    apply foldl_preserves (fun m : List (String × Nat) => ∀ p ∈ m, 1 ≤ p.2)
    · intro p hp
      simp at hp
    · intro m batch _ hm
      apply foldl_preserves (fun m : List (String × Nat) => ∀ p ∈ m, 1 ≤ p.2) _ _ _ hm
      intro m2 c _ hm2
      cases c.authorLogin with
      | none => exact hm2
      | some login =>
        dsimp only
        by_cases h1 : login = ""
        · simpa [h1] using hm2
        · rw [if_neg h1]
          by_cases h2 : isBotLogin login = true
          · rw [if_pos h2]
            exact hm2
          · rw [if_neg h2]
            exact bumpCount_values_ge_one m2 login hm2

/-- Witness for C10 at a concrete input: with default weights, a
commit-signal candidate ends with a positive score, and a concrete
cross-repo accumulation produces counts of at least 1. -/
theorem C10_witness :
    (0 < (⟨"alice", 3, ["recent commits"], none⟩ : RankedCandidate).score) ∧
    (∀ p ∈ fetchCrossRepoExpertise [[⟨some "carol"⟩], [⟨some "carol"⟩]], 1 ≤ p.2) := by
  have h := C10_theorem (fun _ _ => false)
    ⟨[("f1", ["alice"])], "zed", [], ["f1"], [], ⟨1, 4, 1⟩, [], none, []⟩
    (by decide) (by decide)
  exact ⟨h.1 ⟨"alice", 3, ["recent commits"], none⟩ (by decide),
    h.2 [[⟨some "carol"⟩], [⟨some "carol"⟩]]⟩

-- -------------------- Exclusion (C6) --------------------

/-- Claim C6: exclusion removes every login of the merged exclusion set
(lowercased input exclusions plus repository-config exclusions) right
after base scoring: the pipeline applies the exclusion filter before the
load and flaky penalties (last conjunct, by construction of the
pipeline), so no excluded login appears in the pre-truncation list that
feeds the confidence computation (first conjunct), none appears in the
truncated output (second conjunct), and confidence is computed from that
excluded-free list (third conjunct). -/
theorem C6_theorem (mm : String → String → Bool) (inp : RankInput)
    (inputExcludes configExcludes : List String) (penalizeLoad : Bool)
    (loadCounts : List (String × Nat)) (flaky : List String) (maxReviewers : Nat)
    (filesToCheck : List String) :
    (∀ r ∈ analyzeRanked mm inp (fetchExcludedReviewers inputExcludes configExcludes)
        penalizeLoad loadCounts flaky,
      (fetchExcludedReviewers inputExcludes configExcludes).contains
        (toLowerCase r.login) = false) ∧
    (∀ r ∈ suggestionsOf mm inp (fetchExcludedReviewers inputExcludes configExcludes)
        penalizeLoad loadCounts flaky maxReviewers,
      (fetchExcludedReviewers inputExcludes configExcludes).contains
        (toLowerCase r.login) = false) ∧
    (confidenceOf mm inp (fetchExcludedReviewers inputExcludes configExcludes)
        penalizeLoad loadCounts flaky filesToCheck =
      computeConfidence mm
        (analyzeRanked mm inp (fetchExcludedReviewers inputExcludes configExcludes)
          penalizeLoad loadCounts flaky)
        filesToCheck inp.codeownersRules inp.fileAuthors) ∧
    (analyzeRanked mm inp (fetchExcludedReviewers inputExcludes configExcludes)
        penalizeLoad loadCounts flaky =
      applyFlakyStep flaky
        (applyLoadStep penalizeLoad loadCounts
          (excludeFilter (fetchExcludedReviewers inputExcludes configExcludes)
            (rankCandidates mm inp)))) := by
  have hmain : ∀ r ∈ analyzeRanked mm inp
      (fetchExcludedReviewers inputExcludes configExcludes) penalizeLoad loadCounts flaky,
      (fetchExcludedReviewers inputExcludes configExcludes).contains
        (toLowerCase r.login) = false := by
    intro r hr
    rcases mem_analyzeRanked_login mm inp _ penalizeLoad loadCounts flaky r hr with
      ⟨r0, _, hlogin, hcont⟩
    rw [hlogin]
    exact hcont
  refine ⟨hmain, ?_, rfl, rfl⟩
  intro r hr
  exact hmain r (List.take_subset _ _ hr)

/-- Witness for C6 at a concrete input: with the merged exclusion set
built from the input string Dave, the surviving candidate alice is not
excluded (while dave, who would rank first with the required-reviewer
floor of 10, does not survive the filter). -/
theorem C6_witness :
    (fetchExcludedReviewers ["Dave"] []).contains
      (toLowerCase (⟨"alice", 3, ["recent commits"], none⟩ : RankedCandidate).login) =
      false :=
  (C6_theorem (fun _ _ => false)
    ⟨[("f1", ["alice"])], "zed", [], ["f1"], [], ⟨1, 4, 1⟩, [], none, ["dave"]⟩
    ["Dave"] [] false [] [] 3 ["f1"]).1
    ⟨"alice", 3, ["recent commits"], none⟩ (by decide)

-- -------------------- Flaky detection and penalty (C4) --------------------

theorem lookupKey_eq_of_mem_nodup {α : Type} (m : List (String × α)) (k : String)
    (v : α) (hnd : (keysOf m).Nodup) (hmem : (k, v) ∈ m) :
    lookupKey m k = some v := by
  induction m with
  | nil => simp at hmem
  | cons hd t ih =>
    obtain ⟨k2, v2⟩ := hd
    have hcons : (k2 :: keysOf t).Nodup := by simpa [keysOf] using hnd
    rcases List.mem_cons.mp hmem with h1 | h1
    · cases h1
      simp [lookupKey]
    · have hkin : k ∈ keysOf t := List.mem_map.mpr ⟨(k, v), h1, rfl⟩
      have hk2 : k2 ∉ keysOf t := (List.nodup_cons.mp hcons).1
      have hne : k2 ≠ k := fun he => hk2 (he ▸ hkin)
      simp only [lookupKey, if_neg hne]
      exact ih (List.nodup_cons.mp hcons).2 h1

theorem nodupKeys_bumpCount (m : List (String × Nat)) (k : String)
    (h : (keysOf m).Nodup) : (keysOf (bumpCount m k)).Nodup :=
  nodupKeys_mapSet m k _ h

theorem requestedCountsFrom_nodupKeys (openPRs : List (List (Option String))) :
    (keysOf (requestedCountsFrom openPRs)).Nodup := by
  unfold requestedCountsFrom
  apply foldl_preserves (fun m : List (String × Nat) => (keysOf m).Nodup)
  · simp [keysOf]
  · intro m logins _ hm
    apply foldl_preserves (fun m : List (String × Nat) => (keysOf m).Nodup) _ _ _ hm
    intro m2 login _ hm2
    dsimp only
    by_cases h1 : toLowerCase (login.getD "") = ""
    · rw [if_pos h1]
      exact hm2
    · rw [if_neg h1]
      exact nodupKeys_bumpCount m2 _ hm2

theorem flakyFrom_mem_iff (req rev : List (String × Nat))
    (hnd : (keysOf req).Nodup) (login : String) :
    login ∈ flakyFrom req rev ↔
      3 ≤ mapGetD req login 0 ∧ mapGetD rev login 0 < mapGetD req login 0 := by
  unfold flakyFrom
  constructor
  · intro h
    rcases List.mem_map.mp h with ⟨p, hp, hp1⟩
    have hfil := List.mem_filter.mp hp
    have hcond := hfil.1
    have hb := hfil.2
    simp only [Bool.and_eq_true, decide_eq_true_eq] at hb
    have hlook : lookupKey req p.1 = some p.2 :=
      lookupKey_eq_of_mem_nodup req p.1 p.2 hnd hfil.1
    subst hp1
    have hget : mapGetD req p.1 0 = p.2 := by
      unfold mapGetD
      rw [hlook]
      rfl
    rw [hget]
    exact hb
  · intro ⟨h3, hlt⟩
    have hne : mapGetD req login 0 ≠ 0 := by omega
    have hmem : (login, mapGetD req login 0) ∈ req := mapGetD_mem_of_ne_default req login hne
    apply List.mem_map.mpr
    refine ⟨(login, mapGetD req login 0), ?_, rfl⟩
    apply List.mem_filter.mpr
    refine ⟨hmem, ?_⟩
    simp only [Bool.and_eq_true, decide_eq_true_eq]
    exact ⟨h3, hlt⟩

theorem latencyReason_ne_flaky (q : ℚ) : latencyReason q ≠ "flaky reviewer" := by
  intro h
  have hl := congrArg String.length h
  unfold latencyReason at hl
  have h16 : ("fast reviewer (~" : String).length = 16 := by decide
  have h9 : ("h median)" : String).length = 9 := by decide
  have h14 : ("flaky reviewer" : String).length = 14 := by decide
  rw [String.length_append, String.length_append, h16, h9, h14] at hl
  omega

/-- No recorded reason is the flaky-penalty reason string. -/
theorem reasonsOk_addCand (prAuthor : String) (st : RankState) (login : String)
    (pts : Nat) (reason : String) (hne : reason ≠ "flaky reviewer")
    (h : reasonsOk st) : reasonsOk (addCand prAuthor st login pts reason) := by
  unfold addCand
  by_cases hb : isBotLogin login
  · rw [if_pos hb]
    exact h
  · rw [if_neg hb]
    by_cases hp : login = prAuthor
    · rw [if_pos hp]
      exact h
    · rw [if_neg hp]
      intro q hq
      unfold reasonsAddReason at hq
      simp only at hq
      cases hl : lookupKey st.reasons login with
      | none =>
        rw [hl] at hq
        rcases mem_mapSet_elim st.reasons login (setAdd [] reason) q hq with h1 | h1
        · rw [h1.2]
          exact not_mem_setAdd [] reason _ (by simp) (fun he => hne he.symm)
        · exact h q h1
      | some s =>
        rw [hl] at hq
        rcases mem_mapSet_elim st.reasons login (setAdd s reason) q hq with h1 | h1
        · rw [h1.2]
          have hs : (login, s) ∈ st.reasons := lookupKey_eq_some_mem st.reasons login s hl
          exact not_mem_setAdd s reason _ (h (login, s) hs) (fun he => hne he.symm)
        · exact h q h1

theorem reasonsOk_commitStep (prAuthor : String) (wch : Nat)
    (fileAuthors : List (String × List String)) (st : RankState)
    (h : reasonsOk st) : reasonsOk (commitStep prAuthor wch fileAuthors st) := by
  unfold commitStep
  apply foldl_preserves reasonsOk _ _ _ h
  intro st2 pa _ h2
  apply foldl_preserves reasonsOk _ _ _ h2
  intro st3 ia _ h3
  exact reasonsOk_addCand prAuthor st3 ia.2 _ _ (by decide) h3

theorem reasonsOk_codeownersStep (mm : String → String → Bool) (prAuthor : String)
    (wco : Nat) (rules : List CodeownersRule) (changedFiles : List String)
    (st : RankState) (h : reasonsOk st) :
    reasonsOk (codeownersStep mm prAuthor wco rules changedFiles st) := by
  unfold codeownersStep
  by_cases hg : 0 < wco ∧ rules ≠ []
  · rw [if_pos hg]
    have : ∀ acc : List String × RankState, reasonsOk acc.2 →
        reasonsOk (changedFiles.foldl
          (fun acc f => codeownersFileStep mm prAuthor wco rules f acc) acc).2 := by
      intro acc hacc
      apply foldl_preserves (fun acc : List String × RankState => reasonsOk acc.2)
        _ _ _ hacc
      intro acc2 f _ h2
      unfold codeownersFileStep
      apply foldl_preserves (fun acc : List String × RankState => reasonsOk acc.2)
        _ _ _ h2
      intro acc3 o _ h3
      by_cases ho : o = ""
      · simpa [ho] using h3
      · rw [if_neg ho]
        by_cases hseen : acc3.1.contains (o ++ "::" ++ f) = true
        · rw [if_pos hseen]
          exact h3
        · rw [if_neg hseen]
          exact reasonsOk_addCand prAuthor acc3.2 o wco "CODEOWNERS" (by decide) h3
    exact this ([], st) h
  · rw [if_neg hg]
    exact h

theorem reasonsOk_latencyStep (prAuthor : String) (wlat : Nat)
    (latencyMap : List (String × ℚ)) (st : RankState) (h : reasonsOk st) :
    reasonsOk (latencyStep prAuthor wlat latencyMap st) := by
  unfold latencyStep
  by_cases hg : 0 < wlat ∧ latencyMap ≠ []
  · rw [if_pos hg]
    apply foldl_preserves reasonsOk _ _ _ h
    intro st2 p _ h2
    by_cases hb : 0 < latencyBonusHours (some p.2) * wlat
    · rw [if_pos hb]
      exact reasonsOk_addCand prAuthor st2 p.1 _ _ (latencyReason_ne_flaky p.2) h2
    · rw [if_neg hb]
      exact h2
  · rw [if_neg hg]
    exact h

theorem reasonsOk_crossRepoStep (prAuthor : String) (cre : List (String × Nat))
    (st : RankState) (h : reasonsOk st) :
    reasonsOk (crossRepoStep prAuthor cre st) := by
  unfold crossRepoStep
  by_cases hg : cre ≠ []
  · rw [if_pos hg]
    apply foldl_preserves reasonsOk _ _ _ h
    intro st2 p _ h2
    exact reasonsOk_addCand prAuthor st2 p.1 _ _ (by decide) h2
  · rw [if_neg hg]
    exact h

theorem reasonsOk_timezoneStep (prAuthor : String) (tz : Option TimezoneData)
    (st : RankState) (h : reasonsOk st) :
    reasonsOk (timezoneStep prAuthor tz st) := by
  unfold timezoneStep
  cases tz with
  | none => exact h
  | some td =>
    apply foldl_preserves reasonsOk _ _ _ h
    intro st2 p _ h2
    by_cases hb : 0 < timezoneBonus p.2 td.preferredOffset
    · rw [if_pos hb]
      exact reasonsOk_addCand prAuthor st2 p.1 _ _ (by decide) h2
    · rw [if_neg hb]
      exact h2

theorem reasonsOk_requiredStep (prAuthor : String) (required : List String)
    (st : RankState) (h : reasonsOk st) :
    reasonsOk (requiredStep prAuthor required st) := by
  unfold requiredStep
  apply foldl_preserves reasonsOk _ _ _ h
  intro st2 login _ h2
  unfold requiredBody
  by_cases h1 : login = prAuthor
  · rw [if_pos h1]
    exact h2
  · rw [if_neg h1]
    by_cases hb : isBotLogin login
    · rw [if_pos hb]
      exact h2
    · rw [if_neg hb]
      by_cases h0 : mapGetD st2.scores login 0 = 0
      · rw [if_pos h0]
        exact reasonsOk_addCand prAuthor st2 login 10 "required reviewer" (by decide) h2
      · rw [if_neg h0]
        exact reasonsOk_addCand prAuthor st2 login 5 "required reviewer" (by decide) h2

theorem rankCandidates_reasons_ok (mm : String → String → Bool) (inp : RankInput)
    (r : RankedCandidate) (hr : r ∈ rankCandidates mm inp) :
    "flaky reviewer" ∉ r.reasons := by
  have hok : reasonsOk (rankFinalState mm inp) := by
    unfold rankFinalState preRequiredState
    apply reasonsOk_requiredStep
    apply reasonsOk_timezoneStep
    apply reasonsOk_crossRepoStep
    apply reasonsOk_latencyStep
    apply reasonsOk_codeownersStep
    apply reasonsOk_commitStep
    intro q hq
    simp at hq
  unfold rankCandidates at hr
  simp only [List.mem_map] at hr
  rcases hr with ⟨p, _, hpr⟩
  rw [← hpr]
  simp only
  unfold mapGetD
  cases hl : lookupKey (rankFinalState mm inp).reasons p.1 with
  | none => simp
  | some s =>
    simp only [Option.getD_some]
    exact hok (p.1, s) (lookupKey_eq_some_mem _ _ _ hl)

theorem preFlaky_reasons_ok (mm : String → String → Bool) (inp : RankInput)
    (excluded : List String) (penalizeLoad : Bool) (loadCounts : List (String × Nat))
    (r : RankedCandidate)
    (hr : r ∈ applyLoadStep penalizeLoad loadCounts
      (excludeFilter excluded (rankCandidates mm inp))) :
    "flaky reviewer" ∉ r.reasons := by
  rcases mem_applyLoadStep_elim _ _ _ _ hr with h1 | ⟨r0, hr0, hre⟩
  · exact rankCandidates_reasons_ok mm inp r
      (mem_excludeFilter_elim _ _ _ h1).1
  · rw [hre, penalizeCandidate_reasons]
    exact rankCandidates_reasons_ok mm inp r0 (mem_excludeFilter_elim _ _ _ hr0).1

/-- Claim C4: a login is flagged flaky exactly when it has at least 3
current open-PR review requests and its count of sampled closed PRs with
a submitted review is below that request count (first conjunct); and in
the pipeline every flagged candidate's post-load score is halved with
JS rounding and gains the reason "flaky reviewer" exactly once, landing
in the final ranked list (second conjunct). -/
theorem C4_theorem :
    (∀ (since : ℚ) (closed : List FlakySample) (openPRs : List (List (Option String)))
      (login : String),
      login ∈ detectFlakyReviewers since closed openPRs ↔
        3 ≤ mapGetD (requestedCountsFrom openPRs) login 0 ∧
        mapGetD (reviewedCountsFrom since closed) login 0 <
          mapGetD (requestedCountsFrom openPRs) login 0) ∧
    (∀ (mm : String → String → Bool) (inp : RankInput) (excluded : List String)
      (penalizeLoad : Bool) (loadCounts : List (String × Nat)) (flaky : List String)
      (r : RankedCandidate),
      r ∈ applyLoadStep penalizeLoad loadCounts
        (excludeFilter excluded (rankCandidates mm inp)) →
      flaky.contains (toLowerCase r.login) = true →
      flakyCandidate flaky r ∈ analyzeRanked mm inp excluded penalizeLoad loadCounts flaky ∧
      (flakyCandidate flaky r).score = (jsRound ((r.score : ℚ) * (1/2))).toNat ∧
      (flakyCandidate flaky r).reasons.count "flaky reviewer" = 1) := by
  constructor
  · intro since closed openPRs login
    unfold detectFlakyReviewers
    exact flakyFrom_mem_iff _ _ (requestedCountsFrom_nodupKeys openPRs) login
  · intro mm inp excluded penalizeLoad loadCounts flaky r hr hfl
    have hflne : flaky ≠ [] := by
      intro he
      rw [he] at hfl
      simp [List.contains] at hfl
    have hnot : "flaky reviewer" ∉ r.reasons :=
      preFlaky_reasons_ok mm inp excluded penalizeLoad loadCounts r hr
    refine ⟨?_, ?_, ?_⟩
    · unfold analyzeRanked applyFlakyStep
      rw [if_neg hflne]
      apply (mem_sortByScoreDesc _ _ _).mpr
      exact List.mem_map_of_mem (flakyCandidate flaky) hr
    · unfold flakyCandidate
      rw [if_pos hfl]
    · unfold flakyCandidate
      rw [if_pos hfl]
      simp only [List.count_append]
      rw [List.count_eq_zero.mpr hnot]
      simp

/-- Witness for C4 at concrete inputs: a login requested on 3 open PRs
with 1 reviewed sample is flagged (and one with enough reviews is not);
and a concrete post-load candidate flagged as flaky keeps its halved
rounded score with the reason appended once. -/
theorem C4_witness :
    ("bob" ∈ detectFlakyReviewers 0 [⟨1, [some "bob"]⟩]
        [[some "Bob"], [some "bob"], [some "bob"]] ↔
      3 ≤ mapGetD (requestedCountsFrom [[some "Bob"], [some "bob"], [some "bob"]]) "bob" 0 ∧
      mapGetD (reviewedCountsFrom 0 [⟨1, [some "bob"]⟩]) "bob" 0 <
        mapGetD (requestedCountsFrom [[some "Bob"], [some "bob"], [some "bob"]]) "bob" 0) ∧
    flakyCandidate ["alice"]
        (⟨"alice", 3, ["recent commits"], none⟩ : RankedCandidate) ∈
      analyzeRanked (fun _ _ => false)
        ⟨[("f1", ["alice"])], "zed", [], ["f1"], [], ⟨1, 4, 1⟩, [], none, []⟩
        [] false [] ["alice"] ∧
    (flakyCandidate ["alice"]
        (⟨"alice", 3, ["recent commits"], none⟩ : RankedCandidate)).score =
      (jsRound (((3 : Nat) : ℚ) * (1/2))).toNat ∧
    (flakyCandidate ["alice"]
        (⟨"alice", 3, ["recent commits"], none⟩ : RankedCandidate)).reasons.count
      "flaky reviewer" = 1 := by
  have h2 := C4_theorem.2 (fun _ _ => false)
    ⟨[("f1", ["alice"])], "zed", [], ["f1"], [], ⟨1, 4, 1⟩, [], none, []⟩
    [] false [] ["alice"] ⟨"alice", 3, ["recent commits"], none⟩
    (by decide) (by decide)
  exact ⟨C4_theorem.1 0 [⟨1, [some "bob"]⟩] [[some "Bob"], [some "bob"], [some "bob"]] "bob",
    h2.1, h2.2.1, h2.2.2⟩

-- -------------------- Required reviewers (C5) --------------------

theorem requiredStep_append (prAuthor : String) (l1 l2 : List String) (lg : String)
    (st : RankState) :
    requiredStep prAuthor (l1 ++ lg :: l2) st =
      requiredStep prAuthor l2 (requiredBody prAuthor (requiredStep prAuthor l1 st) lg) := by
  unfold requiredStep
  rw [List.foldl_append, List.foldl_cons]

theorem requiredBody_get_other (prAuthor : String) (st : RankState) (a lg : String)
    (hne : lg ≠ a) :
    mapGetD (requiredBody prAuthor st a).scores lg 0 = mapGetD st.scores lg 0 := by
  unfold requiredBody
  by_cases h1 : a = prAuthor
  · rw [if_pos h1]
  · rw [if_neg h1]
    by_cases hb : isBotLogin a
    · rw [if_pos hb]
    · rw [if_neg hb]
      by_cases h0 : mapGetD st.scores a 0 = 0
      · rw [if_pos h0]
        exact addCand_scores_get_other prAuthor st a lg 10 "required reviewer" hne
      · rw [if_neg h0]
        exact addCand_scores_get_other prAuthor st a lg 5 "required reviewer" hne

theorem requiredBody_reason_mono (prAuthor : String) (st : RankState) (a k x : String)
    (hx : x ∈ mapGetD st.reasons k []) :
    x ∈ mapGetD (requiredBody prAuthor st a).reasons k [] := by
  unfold requiredBody
  by_cases h1 : a = prAuthor
  · rw [if_pos h1]
    exact hx
  · rw [if_neg h1]
    by_cases hb : isBotLogin a
    · rw [if_pos hb]
      exact hx
    · rw [if_neg hb]
      by_cases h0 : mapGetD st.scores a 0 = 0
      · rw [if_pos h0]
        exact addCand_reason_mem_mono prAuthor st a k 10 "required reviewer" x hx
      · rw [if_neg h0]
        exact addCand_reason_mem_mono prAuthor st a k 5 "required reviewer" x hx

theorem requiredStep_get_not_mem (prAuthor : String) (req : List String)
    (st : RankState) (lg : String) (h : lg ∉ req) :
    mapGetD (requiredStep prAuthor req st).scores lg 0 = mapGetD st.scores lg 0 := by
  induction req generalizing st with
  | nil => rfl
  | cons a t ih =>
    have hne : lg ≠ a := fun he => h (he ▸ List.mem_cons_self a t)
    have hnt : lg ∉ t := fun ht => h (List.mem_cons_of_mem a ht)
    unfold requiredStep at ih ⊢
    rw [List.foldl_cons]
    rw [ih (requiredBody prAuthor st a) hnt]
    exact requiredBody_get_other prAuthor st a lg hne

theorem requiredStep_reason_mono (prAuthor : String) (req : List String)
    (st : RankState) (k x : String) (hx : x ∈ mapGetD st.reasons k []) :
    x ∈ mapGetD (requiredStep prAuthor req st).reasons k [] := by
  induction req generalizing st with
  | nil => exact hx
  | cons a t ih =>
    unfold requiredStep at ih ⊢
    rw [List.foldl_cons]
    exact ih (requiredBody prAuthor st a) (requiredBody_reason_mono prAuthor st a k x hx)

theorem requiredBody_get_self (prAuthor : String) (st : RankState) (lg : String)
    (hb : isBotLogin lg = false) (hp : lg ≠ prAuthor) :
    mapGetD (requiredBody prAuthor st lg).scores lg 0 =
      (if mapGetD st.scores lg 0 = 0 then 10 else mapGetD st.scores lg 0 + 5) ∧
    "required reviewer" ∈ mapGetD (requiredBody prAuthor st lg).reasons lg [] := by
  unfold requiredBody
  rw [if_neg hp, if_neg (by simp [hb])]
  by_cases h0 : mapGetD st.scores lg 0 = 0
  · rw [if_pos h0, if_pos h0]
    constructor
    · rw [addCand_scores_get_self prAuthor st lg 10 "required reviewer" hb hp, h0]
    · exact addCand_reason_mem_self prAuthor st lg 10 "required reviewer" hb hp
  · rw [if_neg h0, if_neg h0]
    constructor
    · rw [addCand_scores_get_self prAuthor st lg 5 "required reviewer" hb hp]
    · exact addCand_reason_mem_self prAuthor st lg 5 "required reviewer" hb hp

theorem login_surfaces_loadStep (penalizeLoad : Bool) (loadCounts : List (String × Nat))
    (l : List RankedCandidate) (lg : String) (h : ∃ r ∈ l, r.login = lg) :
    ∃ r ∈ applyLoadStep penalizeLoad loadCounts l, r.login = lg := by
  rcases h with ⟨r, hr, hlog⟩
  unfold applyLoadStep
  by_cases hp : penalizeLoad = true
  · rw [if_pos hp]
    refine ⟨penalizeCandidate loadCounts r, ?_, by rw [penalizeCandidate_login, hlog]⟩
    exact (mem_sortByScoreDesc _ _ _).mpr (List.mem_map_of_mem _ hr)
  · rw [if_neg hp]
    exact ⟨r, hr, hlog⟩

theorem login_surfaces_flakyStep (flaky : List String) (l : List RankedCandidate)
    (lg : String) (h : ∃ r ∈ l, r.login = lg) :
    ∃ r ∈ applyFlakyStep flaky l, r.login = lg := by
  rcases h with ⟨r, hr, hlog⟩
  unfold applyFlakyStep
  by_cases hf : flaky = []
  · rw [if_pos hf]
    exact ⟨r, hr, hlog⟩
  · rw [if_neg hf]
    refine ⟨flakyCandidate flaky r, ?_, by rw [flakyCandidate_login, hlog]⟩
    exact (mem_sortByScoreDesc _ _ _).mpr (List.mem_map_of_mem _ hr)

/-- Claim C5: a required-reviewer login that is neither the PR author nor
bot-like gets exactly 10 points at the required step when it had no score
before the step and exactly +5 points when it already had signal, with the
reason "required reviewer" (first two conjuncts); it appears in the
ranking produced by rankCandidates carrying that reason (third conjunct);
and, when it is not in the exclusion set, it appears in the final
pre-truncation list of the pipeline (fourth conjunct).  The
required-reviewer configuration is a set of logins, modelled as a
duplicate-free list. -/
theorem C5_theorem (mm : String → String → Bool) (inp : RankInput) (lg : String)
    (hmem : lg ∈ inp.requiredReviewers) (hnd : inp.requiredReviewers.Nodup)
    (hb : isBotLogin lg = false) (hp : lg ≠ inp.prAuthor) :
    (mapGetD (preRequiredState mm inp).scores lg 0 = 0 →
      mapGetD (rankFinalState mm inp).scores lg 0 = 10) ∧
    (mapGetD (preRequiredState mm inp).scores lg 0 ≠ 0 →
      mapGetD (rankFinalState mm inp).scores lg 0 =
        mapGetD (preRequiredState mm inp).scores lg 0 + 5) ∧
    (∃ r ∈ rankCandidates mm inp, r.login = lg ∧ "required reviewer" ∈ r.reasons) ∧
    (∀ (excluded : List String) (penalizeLoad : Bool) (loadCounts : List (String × Nat))
      (flaky : List String),
      excluded.contains (toLowerCase lg) = false →
      ∃ r ∈ analyzeRanked mm inp excluded penalizeLoad loadCounts flaky, r.login = lg) := by
  obtain ⟨l1, l2, hsplit⟩ := List.append_of_mem hmem
  have hnd2 : (l1 ++ lg :: l2).Nodup := hsplit ▸ hnd
  have hdis := (List.nodup_append.mp hnd2).2.2
  have hl1 : lg ∉ l1 := fun hin => hdis hin (List.mem_cons_self lg l2)
  have hl2 : lg ∉ l2 :=
    (List.nodup_cons.mp (List.nodup_append.mp hnd2).2.1).1
  have hfinal : rankFinalState mm inp =
      requiredStep inp.prAuthor l2
        (requiredBody inp.prAuthor
          (requiredStep inp.prAuthor l1 (preRequiredState mm inp)) lg) := by
    unfold rankFinalState
    rw [hsplit, requiredStep_append]
  have hpre : mapGetD (requiredStep inp.prAuthor l1 (preRequiredState mm inp)).scores lg 0 =
      mapGetD (preRequiredState mm inp).scores lg 0 :=
    requiredStep_get_not_mem inp.prAuthor l1 (preRequiredState mm inp) lg hl1
  have hbody := requiredBody_get_self inp.prAuthor
    (requiredStep inp.prAuthor l1 (preRequiredState mm inp)) lg hb hp
  have hget : mapGetD (rankFinalState mm inp).scores lg 0 =
      (if mapGetD (preRequiredState mm inp).scores lg 0 = 0 then 10
        else mapGetD (preRequiredState mm inp).scores lg 0 + 5) := by
    rw [hfinal]
    rw [requiredStep_get_not_mem inp.prAuthor l2 _ lg hl2]
    rw [hbody.1, hpre]
  have hreason : "required reviewer" ∈ mapGetD (rankFinalState mm inp).reasons lg [] := by
    rw [hfinal]
    exact requiredStep_reason_mono inp.prAuthor l2 _ lg _ hbody.2
  have hne0 : mapGetD (rankFinalState mm inp).scores lg 0 ≠ 0 := by
    rw [hget]
    by_cases h0 : mapGetD (preRequiredState mm inp).scores lg 0 = 0
    · rw [if_pos h0]
      omega
    · rw [if_neg h0]
      omega
  have hrank : ∃ r ∈ rankCandidates mm inp, r.login = lg ∧
      "required reviewer" ∈ r.reasons := by
    have hmem2 : (lg, mapGetD (rankFinalState mm inp).scores lg 0) ∈
        (rankFinalState mm inp).scores :=
      mapGetD_mem_of_ne_default _ lg hne0
    refine ⟨⟨lg, mapGetD (rankFinalState mm inp).scores lg 0,
      mapGetD (rankFinalState mm inp).reasons lg [], none⟩, ?_, rfl, hreason⟩
    unfold rankCandidates
    apply List.mem_map.mpr
    refine ⟨(lg, mapGetD (rankFinalState mm inp).scores lg 0), ?_, rfl⟩
    exact (mem_sortByScoreDesc _ _ _).mpr hmem2
  refine ⟨?_, ?_, hrank, ?_⟩
  · intro h0
    rw [hget, if_pos h0]
  · intro h0
    rw [hget, if_neg h0]
  · intro excluded penalizeLoad loadCounts flaky hex
    rcases hrank with ⟨r, hr, hlog, _⟩
    unfold analyzeRanked
    apply login_surfaces_flakyStep
    apply login_surfaces_loadStep
    refine ⟨r, ?_, hlog⟩
    unfold excludeFilter
    apply List.mem_filter.mpr
    refine ⟨hr, ?_⟩
    rw [hlog, hex]
    rfl

/-- Witness for C5 at a concrete input: the required reviewer dave has no
organic signal, so he scores exactly 10 with the "required reviewer"
reason and appears in the pipeline's pre-truncation output. -/
theorem C5_witness :
    mapGetD
      (rankFinalState (fun _ _ => false)
        ⟨[("f1", ["alice"])], "zed", [], ["f1"], [], ⟨1, 4, 1⟩, [], none, ["dave"]⟩).scores
      "dave" 0 = 10 ∧
    (∃ r ∈ analyzeRanked (fun _ _ => false)
        ⟨[("f1", ["alice"])], "zed", [], ["f1"], [], ⟨1, 4, 1⟩, [], none, ["dave"]⟩
        [] true [("dave", 1)] [], r.login = "dave") := by
  have h := C5_theorem (fun _ _ => false)
    ⟨[("f1", ["alice"])], "zed", [], ["f1"], [], ⟨1, 4, 1⟩, [], none, ["dave"]⟩
    "dave" (by decide) (by decide) (by decide) (by decide)
  exact ⟨h.1 (by decide), h.2.2.2 [] true [("dave", 1)] [] (by decide)⟩

-- -------------------- Commit attribution (C7) --------------------

/-- Modelled from the spec, for comparison only (claim C7's crediting
rule): credit per path computed over the deduplicated author list,
position i among the first ten distinct authors contributing
max(1, 3 - i) times the commit-history weight. -/
theorem commitInner_get (prAuthor : String) (wch : Nat) (st : RankState)
    (login : String) (hb : isBotLogin login = false) (hp : login ≠ prAuthor)
    (L : List (Nat × String)) :
    mapGetD ((L.foldl (fun st ia =>
        addCand prAuthor st ia.2 (Nat.max 1 (3 - ia.1) * wch) "recent commits") st)).scores
      login 0 =
    mapGetD st.scores login 0 +
      ((L.filter (fun ia => ia.2 = login)).map (fun ia => Nat.max 1 (3 - ia.1) * wch)).sum := by
  induction L generalizing st with
  | nil => simp
  | cons ia t ih =>
    rw [List.foldl_cons]
    by_cases hia : ia.2 = login
    · rw [ih (addCand prAuthor st ia.2 (Nat.max 1 (3 - ia.1) * wch) "recent commits")]
      rw [hia, addCand_scores_get_self prAuthor st login _ _ hb hp]
      have hf : (ia :: t).filter (fun ia => ia.2 = login) =
          ia :: t.filter (fun ia => ia.2 = login) := by
        simp [List.filter_cons, hia]
      rw [hf]
      simp
      omega
    · rw [ih (addCand prAuthor st ia.2 (Nat.max 1 (3 - ia.1) * wch) "recent commits")]
      rw [addCand_scores_get_other prAuthor st ia.2 login _ _ (fun he => hia he.symm)]
      have hf : (ia :: t).filter (fun ia => ia.2 = login) =
          t.filter (fun ia => ia.2 = login) := by
        simp [List.filter_cons, hia]
      rw [hf]

theorem commitInner_reason_mono (prAuthor : String) (wch : Nat) (st : RankState)
    (k x : String) (L : List (Nat × String)) (hx : x ∈ mapGetD st.reasons k []) :
    x ∈ mapGetD ((L.foldl (fun st ia =>
        addCand prAuthor st ia.2 (Nat.max 1 (3 - ia.1) * wch) "recent commits") st)).reasons
      k [] := by
  induction L generalizing st with
  | nil => exact hx
  | cons ia t ih =>
    rw [List.foldl_cons]
    exact ih _ (addCand_reason_mem_mono prAuthor st ia.2 k _ _ x hx)

theorem commitInner_reason (prAuthor : String) (wch : Nat) (st : RankState)
    (login : String) (hb : isBotLogin login = false) (hp : login ≠ prAuthor)
    (L : List (Nat × String)) (hmem : ∃ ia ∈ L, ia.2 = login) :
    "recent commits" ∈ mapGetD ((L.foldl (fun st ia =>
        addCand prAuthor st ia.2 (Nat.max 1 (3 - ia.1) * wch) "recent commits") st)).reasons
      login [] := by
  induction L generalizing st with
  | nil => simp at hmem
  | cons ia t ih =>
    rw [List.foldl_cons]
    by_cases hia : ia.2 = login
    · apply commitInner_reason_mono
      rw [← hia]
      exact addCand_reason_mem_self prAuthor st ia.2 _ _ (hia ▸ hb) (hia ▸ hp)
    · rcases hmem with ⟨ia2, hia2, he⟩
      rcases List.mem_cons.mp hia2 with h1 | h1
      · exact absurd (h1 ▸ he) hia
      · exact ih _ ⟨ia2, h1, he⟩

theorem commitStep_reason_mono (prAuthor : String) (wch : Nat)
    (fileAuthors : List (String × List String)) (st : RankState) (k x : String)
    (hx : x ∈ mapGetD st.reasons k []) :
    x ∈ mapGetD (commitStep prAuthor wch fileAuthors st).reasons k [] := by
  unfold commitStep
  induction fileAuthors generalizing st with
  | nil => exact hx
  | cons pa t ih =>
    rw [List.foldl_cons]
    exact ih _ (commitInner_reason_mono prAuthor wch st k x _ hx)

/-- Claim C7 counterexample: two recent commits by the same author yield
the raw (non-deduplicated) author list [alice, alice], and the code
credits alice 3 + 2 = 5 points for that path, while the claimed rule
(distinct authors, first-seen order: first author weight 3) would credit
exactly 3. -/
theorem C7_counterexample :
    topCommitAuthorsForPath [⟨some "alice"⟩, ⟨some "alice"⟩] = ["alice", "alice"] ∧
    mapGetD (commitStep "zed" 1
        [("f", topCommitAuthorsForPath [⟨some "alice"⟩, ⟨some "alice"⟩])]
        ⟨[], []⟩).scores "alice" 0 = 5 ∧
    specAttributionCredit 1
        (topCommitAuthorsForPath [⟨some "alice"⟩, ⟨some "alice"⟩]) "alice" = 3 ∧
    (5 : Nat) ≠ 3 := by
  refine ⟨by decide, by decide, by decide, by decide⟩

/-- Claim C7 (amended): per changed path the code credits the raw,
non-deduplicated author-login list of that path's recent commits: the
entry at position i (0-based) among the first ten contributes
max(1, 3 - i) times the commit-history weight (3 for the first entry, 2
for the second, 1 afterwards), so a login occupying several of the first
ten positions accumulates each position's weight; the per-login total
added by the commit step is the sum of these position credits over all
paths, with reason "recent commits" for any login among a path's first
ten entries. -/
theorem C7_theorem (prAuthor : String) (wch : Nat)
    (fileAuthors : List (String × List String)) (st : RankState) (login : String)
    (hb : isBotLogin login = false) (hp : login ≠ prAuthor) :
    (mapGetD (commitStep prAuthor wch fileAuthors st).scores login 0 =
      mapGetD st.scores login 0 +
        (fileAuthors.map (fun pa => positionCredit wch pa.2 login)).sum) ∧
    ((∃ pa ∈ fileAuthors, login ∈ pa.2.take 10) →
      "recent commits" ∈ mapGetD (commitStep prAuthor wch fileAuthors st).reasons login []) := by
  constructor
  · unfold commitStep
    induction fileAuthors generalizing st with
    | nil => simp
    | cons pa t ih =>
      rw [List.foldl_cons, List.map_cons, List.sum_cons]
      rw [ih _]
      rw [commitInner_get prAuthor wch st login hb hp]
      unfold positionCredit
      omega
  · intro hex
    revert st hex
    induction fileAuthors with
    | nil =>
      intro st hex
      simp at hex
    | cons pa t ih =>
      intro st hex
      unfold commitStep
      rw [List.foldl_cons]
      rcases hex with ⟨pa2, hpa2, hlogin⟩
      rcases List.mem_cons.mp hpa2 with h1 | h1
      · subst h1
        have hpos : ∃ ia ∈ (pa2.2.take 10).enum, ia.2 = login := by
          have hmap : ((pa2.2.take 10).enum.map Prod.snd) = pa2.2.take 10 :=
            List.enum_map_snd _
          rw [← hmap] at hlogin
          rcases List.mem_map.mp hlogin with ⟨ia, hia, he⟩
          exact ⟨ia, hia, he⟩
        have hfold := commitInner_reason prAuthor wch st login hb hp _ hpos
        have hmono := commitStep_reason_mono prAuthor wch t _ login "recent commits" hfold
        unfold commitStep at hmono
        exact hmono
      · have := ih (((pa.2.take 10).enum).foldl (fun st ia =>
            addCand prAuthor st ia.2 (Nat.max 1 (3 - ia.1) * wch) "recent commits") st)
          ⟨pa2, h1, hlogin⟩
        unfold commitStep at this
        exact this

/-- Witness for C7 (amended) at a concrete input: with weight 1 and raw
author list [alice, alice, bob], alice accumulates 3 + 2 = 5 and carries
the "recent commits" reason. -/
theorem C7_witness :
    (mapGetD (commitStep "zed" 1 [("f", ["alice", "alice", "bob"])] ⟨[], []⟩).scores
        "alice" 0 =
      mapGetD (⟨[], []⟩ : RankState).scores "alice" 0 +
        (([("f", ["alice", "alice", "bob"])].map
          (fun pa => positionCredit 1 pa.2 "alice"))).sum) ∧
    "recent commits" ∈
      mapGetD (commitStep "zed" 1 [("f", ["alice", "alice", "bob"])] ⟨[], []⟩).reasons
        "alice" [] := by
  have h := C7_theorem "zed" 1 [("f", ["alice", "alice", "bob"])] ⟨[], []⟩ "alice"
    (by decide) (by decide)
  exact ⟨h.1, h.2 ⟨("f", ["alice", "alice", "bob"]), by decide, by decide⟩⟩

end PRAdvisor
